import Mathlib

/-!
# taskmgr: the task store

A shallow embedding of `internal/store/store.go` and `pkg/task/task.go`
together with the library behaviour the store relies on:

* the single bbolt bucket `"tasks"` is a key-sorted list of byte-string pairs
  plus its `sequence` counter (a `uint64`, incremented modulo `2^64`);
  `db.Update` commits the closure's writes when it returns `nil` and rolls
  them back otherwise, `db.View` is read-only.  File I/O is taken to
  succeed, so the only failures are the ones the called functions return;
* `encoding/json` on `task.Task`: `json.Marshal` is embedded byte for byte
  (string quoting with HTML escaping and coercion of invalid UTF-8,
  `time.Time.MarshalJSON` in RFC 3339 with nanoseconds); `json.Unmarshal` is
  embedded as `Unmarshal` on the compact layout `json.Marshal` emits, which
  is all a store filled through `AddTask` and `MarkDone` ever reads back
  (white space, reordered, unknown or missing keys, `null` and zone hours
  above 23 are decoding errors of `Unmarshal` though `json.Unmarshal` accepts
  them); what `ListTasks` does on stores with other records is stated over
  `Store.ListTasksWith`, which takes the decoder as a parameter;
* a Go `string`/`[]byte` is a list of byte values (`Nat`, each below 256 in
  well-formed data); a `uint64` is a `Nat` below `2^64`;
* a `time.Time` is kept as the civil fields of its own zone plus the zone
  offset in seconds east of UTC, which together fix the instant and the
  offset; the RFC 3339 rendering carries the offset in whole minutes only.
  The monotonic clock reading and the identity of the `*Location` are not
  modelled.  `time.Now()` is an input of `AddTask`.
-/

namespace TaskMgr

/-- A Go byte string (`string` or `[]byte`). -/
abbrev Bytes := List Nat

/-! ## `unicode/utf8` -/

/-- The rune `utf8.RuneError` (U+FFFD). -/
def RuneError : Nat := 0xFFFD

/-- The rune `utf8.MaxRune`. -/
def MaxRune : Nat := 0x10FFFF

/-- Model of `utf8.DecodeRune`: the first rune of `p` and its width in bytes.
Invalid or short encodings give `(RuneError, 1)`, empty input
`(RuneError, 0)`.  Masks and shifts are written as `%` and `*`. -/
def decodeRune (p : Bytes) : Nat × Nat :=
  match p with
  | [] => (RuneError, 0)
  | p0 :: t =>
    if p0 < 0x80 then (p0, 1)
    else if p0 < 0xC2 then (RuneError, 1)
    else if p0 < 0xE0 then
      match t with
      | b1 :: _ =>
        if b1 < 0x80 ∨ 0xBF < b1 then (RuneError, 1)
        else (p0 % 32 * 64 + b1 % 64, 2)
      | _ => (RuneError, 1)
    else if p0 < 0xF0 then
      match t with
      | b1 :: b2 :: _ =>
        if b1 < (if p0 = 0xE0 then 0xA0 else 0x80) ∨ (if p0 = 0xED then 0x9F else 0xBF) < b1 then
          (RuneError, 1)
        else if b2 < 0x80 ∨ 0xBF < b2 then (RuneError, 1)
        else (p0 % 16 * 4096 + b1 % 64 * 64 + b2 % 64, 3)
      | _ => (RuneError, 1)
    else if p0 < 0xF5 then
      match t with
      | b1 :: b2 :: b3 :: _ =>
        if b1 < (if p0 = 0xF0 then 0x90 else 0x80) ∨ (if p0 = 0xF4 then 0x8F else 0xBF) < b1 then
          (RuneError, 1)
        else if b2 < 0x80 ∨ 0xBF < b2 then (RuneError, 1)
        else if b3 < 0x80 ∨ 0xBF < b3 then (RuneError, 1)
        else (p0 % 8 * 262144 + b1 % 64 * 4096 + b2 % 64 * 64 + b3 % 64, 4)
      | _ => (RuneError, 1)
    else (RuneError, 1)

/-- Model of `utf8.EncodeRune` (the bytes written). -/
def encodeRune (r : Nat) : Bytes :=
  if r ≤ 0x7F then [r]
  else if r ≤ 0x7FF then [0xC0 + r / 64, 0x80 + r % 64]
  else if MaxRune < r ∨ (0xD800 ≤ r ∧ r ≤ 0xDFFF) then [0xEF, 0xBF, 0xBD]
  else if r ≤ 0xFFFF then [0xE0 + r / 4096, 0x80 + r / 64 % 64, 0x80 + r % 64]
  else [0xF0 + r / 262144, 0x80 + r / 4096 % 64, 0x80 + r / 64 % 64, 0x80 + r % 64]

/-- Model of `utf8.Valid` as a loop over `p` with `fuel` iterations. -/
def validLoop : Nat → Bytes → Bool
  | 0, p => p.isEmpty
  | _, [] => true
  | fuel + 1, b :: rest =>
    if b < 0x80 then validLoop fuel rest
    else
      let r := decodeRune (b :: rest)
      if r.2 = 1 then false else validLoop fuel (rest.drop (r.2 - 1))

/-- The byte string is valid UTF-8 (`utf8.Valid`). -/
def ValidUTF8 (p : Bytes) : Prop := validLoop p.length p = true

instance (p : Bytes) : Decidable (ValidUTF8 p) := by
  unfold ValidUTF8; infer_instance

/-! ## `encoding/json`: strings -/

/-- The character `"0123456789abcdef"[n]`. -/
def hexDigit (n : Nat) : Nat := if n < 10 then 48 + n else 87 + n

/-- The table `htmlSafeSet`: ASCII bytes `json.Marshal` copies unescaped. -/
def htmlSafe (b : Nat) : Bool :=
  decide (0x20 ≤ b ∧ b < 0x80 ∧ b ≠ 0x22 ∧ b ≠ 0x26 ∧ b ≠ 0x3C ∧ b ≠ 0x3E ∧ b ≠ 0x5C)

/-- The escape `appendString` writes for an ASCII byte that is not HTML-safe
(Go 1.22 and later; earlier releases write `\b` and `\f` as `\u0008` and
`\u000c`, which the decoder reads as the same bytes). -/
def escapeByte (b : Nat) : Bytes :=
  if b = 0x5C ∨ b = 0x22 then [0x5C, b]
  else if b = 0x08 then [0x5C, 0x62]
  else if b = 0x0C then [0x5C, 0x66]
  else if b = 0x0A then [0x5C, 0x6E]
  else if b = 0x0D then [0x5C, 0x72]
  else if b = 0x09 then [0x5C, 0x74]
  else [0x5C, 0x75, 0x30, 0x30, hexDigit (b / 16), hexDigit (b % 16)]

/-- The loop of `appendString` (with `escapeHTML` set): the quoted form of
`src` without the surrounding quotes. -/
def appendStringLoop : Nat → Bytes → Bytes
  | 0, _ => []
  | _, [] => []
  | fuel + 1, b :: rest =>
    if b < 0x80 then
      (if htmlSafe b then [b] else escapeByte b) ++ appendStringLoop fuel rest
    else
      let r := decodeRune ((b :: rest).take 4)
      if r.1 = RuneError ∧ r.2 = 1 then
        [0x5C, 0x75, 0x66, 0x66, 0x66, 0x64] ++ appendStringLoop fuel rest
      else if r.1 = 0x2028 ∨ r.1 = 0x2029 then
        [0x5C, 0x75, 0x32, 0x30, 0x32, hexDigit (r.1 % 16)]
          ++ appendStringLoop fuel (rest.drop (r.2 - 1))
      else
        (b :: rest).take r.2 ++ appendStringLoop fuel (rest.drop (r.2 - 1))

/-- Model of `appendString`: `src` as a JSON string literal. -/
def appendString (src : Bytes) : Bytes :=
  0x22 :: (appendStringLoop src.length src ++ [0x22])

/-- Value of a hexadecimal digit. -/
def hexVal (c : Nat) : Option Nat :=
  if 48 ≤ c ∧ c ≤ 57 then some (c - 48)
  else if 97 ≤ c ∧ c ≤ 102 then some (c - 87)
  else if 65 ≤ c ∧ c ≤ 70 then some (c - 55)
  else none

/-- Four hexadecimal digits at the head of `s` and what follows them. -/
def hex4 (s : Bytes) : Option (Nat × Bytes) :=
  match s with
  | a :: b :: c :: d :: rest =>
    match hexVal a, hexVal b, hexVal c, hexVal d with
    | some x, some y, some z, some w => some (x * 4096 + y * 256 + z * 16 + w, rest)
    | _, _, _, _ => none
  | _ => none

/-- Model of `getu4`: the code unit of an escape `\uXXXX` at the head of `s`. -/
def getu4 (s : Bytes) : Option (Nat × Bytes) :=
  match s with
  | 0x5C :: 0x75 :: rest => hex4 rest
  | _ => none

/-- Model of `utf16.DecodeRune`. -/
def utf16DecodeRune (r1 r2 : Nat) : Nat :=
  if 0xD800 ≤ r1 ∧ r1 < 0xDC00 ∧ 0xDC00 ≤ r2 ∧ r2 < 0xE000 then
    (r1 - 0xD800) * 1024 + (r2 - 0xDC00) + 0x10000
  else RuneError

/-- Puts `pre` in front of the decoded part of a parse result. -/
def consOut (pre : Bytes) (r : Option (Bytes × Bytes)) : Option (Bytes × Bytes) :=
  match r with
  | some (out, rest) => some (pre ++ out, rest)
  | none => none

/-- One unit of a string literal's body as the decoder reads it
(`unquoteBytes` under the scanner's literal rules): an escape, an ASCII byte
or a UTF-8 sequence starting with the byte `c`, as the bytes it decodes to and
the input after it. -/
def unquoteStep (c : Nat) (rest : Bytes) : Option (Bytes × Bytes) :=
  if c = 0x5C then
    match rest with
    | [] => none
    | e :: rest1 =>
      if e = 0x22 ∨ e = 0x5C ∨ e = 0x2F then some ([e], rest1)
      else if e = 0x62 then some ([0x08], rest1)
      else if e = 0x66 then some ([0x0C], rest1)
      else if e = 0x6E then some ([0x0A], rest1)
      else if e = 0x72 then some ([0x0D], rest1)
      else if e = 0x74 then some ([0x09], rest1)
      else if e = 0x75 then
        match hex4 rest1 with
        | none => none
        | some (rr, rest2) =>
          if 0xD800 ≤ rr ∧ rr < 0xE000 then
            match getu4 rest2 with
            | some (rr1, _) =>
              if utf16DecodeRune rr rr1 ≠ RuneError then
                some (encodeRune (utf16DecodeRune rr rr1), rest2.drop 6)
              else some (encodeRune RuneError, rest2)
            | none => some (encodeRune RuneError, rest2)
          else some (encodeRune rr, rest2)
      else none
  else if c < 0x20 then none
  else if c < 0x80 then some ([c], rest)
  else
    some (encodeRune (decodeRune (c :: rest)).1, rest.drop ((decodeRune (c :: rest)).2 - 1))

/-- Model of the decoder on a string literal whose opening quote has been
read: the decoded bytes and the input after the closing quote. -/
def unquoteLoop : Nat → Bytes → Option (Bytes × Bytes)
  | 0, _ => none
  | _, [] => none
  | fuel + 1, c :: rest =>
    if c = 0x22 then some ([], rest)
    else
      match unquoteStep c rest with
      | none => none
      | some (out, rest1) => consOut out (unquoteLoop fuel rest1)

/-- A string literal at the head of `s`: its decoded bytes and the rest. -/
def parseString (s : Bytes) : Option (Bytes × Bytes) :=
  match s with
  | 0x22 :: rest => unquoteLoop rest.length rest
  | _ => none

/-! ## `strconv`: unsigned decimals -/

/-- The loop of `strconv.AppendUint` in base 10: the digits of `n` in front
of `acc`. -/
def formatUintLoop : Nat → Nat → Bytes → Bytes
  | 0, _, acc => acc
  | fuel + 1, n, acc =>
    if n < 10 then (48 + n) :: acc
    else formatUintLoop fuel (n / 10) ((48 + n % 10) :: acc)

/-- Model of `strconv.AppendUint(nil, n, 10)` for a `uint64` (at most twenty
digits). -/
def formatUint (n : Nat) : Bytes := formatUintLoop 20 n []

/-- Value of a decimal digit. -/
def digitVal (c : Nat) : Option Nat :=
  if 48 ≤ c ∧ c ≤ 57 then some (c - 48) else none

/-- Reads the decimal digits at the head of the input: the value read after
`acc`, how many digits there were, and the input after them. -/
def readDigits : Bytes → Nat → Nat → Nat × Nat × Bytes
  | [], acc, cnt => (acc, cnt, [])
  | c :: rest, acc, cnt =>
    match digitVal c with
    | some d => readDigits rest (acc * 10 + d) (cnt + 1)
    | none => (acc, cnt, c :: rest)

/-- A JSON number at the head of `s` decoded into a `uint64` field: a
non-empty digit string without a leading zero whose value fits 64 bits. -/
def parseUint (s : Bytes) : Option (Nat × Bytes) :=
  match s with
  | [] => none
  | c :: rest =>
    if c = 48 then
      match rest with
      | d :: _ => if (digitVal d).isSome then none else some (0, rest)
      | [] => some (0, rest)
    else
      match readDigits (c :: rest) 0 0 with
      | (v, cnt, rest1) => if cnt = 0 ∨ 2 ^ 64 ≤ v then none else some (v, rest1)

/-! ## `time`: RFC 3339 -/

/-- A `time.Time`: the civil date and clock reading in the value's own zone,
the nanosecond, and the zone offset in seconds east of UTC (the `offset` of
`Time.locabs`). -/
structure Time where
  year : Int
  month : Nat
  day : Nat
  hour : Nat
  minute : Nat
  second : Nat
  nsec : Nat
  offset : Int
deriving DecidableEq

/-- Model of `isLeap`. -/
def isLeap (year : Int) : Bool :=
  decide (year % 4 = 0 ∧ (year % 100 ≠ 0 ∨ year % 400 = 0))

/-- Model of `daysIn`. -/
def daysIn (month : Nat) (year : Int) : Nat :=
  if month = 2 then (if isLeap year then 29 else 28)
  else if month = 4 ∨ month = 6 ∨ month = 9 ∨ month = 11 then 30
  else 31

/-- The fields form a date and clock reading that a `time.Time` can have. -/
def Time.Valid (t : Time) : Prop :=
  1 ≤ t.month ∧ t.month ≤ 12 ∧ 1 ≤ t.day ∧ t.day ≤ daysIn t.month t.year ∧
  t.hour ≤ 23 ∧ t.minute ≤ 59 ∧ t.second ≤ 59 ∧ t.nsec < 1000000000

instance (t : Time) : Decidable t.Valid := by
  unfold Time.Valid; infer_instance

/-- The time passes the checks of `appendStrictRFC3339`: a four-digit year
and a zone of less than 24 hours, the zone being `offset / 60` minutes with
Go's division that truncates toward zero. -/
def Time.InRange (t : Time) : Prop :=
  0 ≤ t.year ∧ t.year ≤ 9999 ∧ (t.offset.tdiv 60).natAbs / 60 < 24

instance (t : Time) : Decidable t.InRange := by
  unfold Time.InRange; infer_instance

/-- Model of `appendInt(b, x, 2)` for `0 ≤ x < 100`. -/
def appendInt2 (x : Nat) : Bytes := [48 + x / 10 % 10, 48 + x % 10]

/-- Model of `appendInt(b, x, 4)` for `0 ≤ x < 10000`. -/
def appendInt4 (x : Nat) : Bytes :=
  [48 + x / 1000 % 10, 48 + x / 100 % 10, 48 + x / 10 % 10, 48 + x % 10]

/-- The nine digits of `appendInt(b, nanosec, 9)`. -/
def appendInt9 (x : Nat) : Bytes :=
  [48 + x / 100000000 % 10, 48 + x / 10000000 % 10, 48 + x / 1000000 % 10,
   48 + x / 100000 % 10, 48 + x / 10000 % 10, 48 + x / 1000 % 10,
   48 + x / 100 % 10, 48 + x / 10 % 10, 48 + x % 10]

/-- Removes the trailing `'0'` bytes. -/
def trimZeros (b : Bytes) : Bytes :=
  (b.reverse.dropWhile (fun c => decide (c = 48))).reverse

/-- Model of `appendNano` for the layout `.999999999`: nothing for a zero
nanosecond, else the point and nine digits with trailing zeros cut. -/
def appendNano (nanosec : Nat) : Bytes :=
  if nanosec = 0 then [] else 0x2E :: trimZeros (appendInt9 nanosec)

/-- The zone part written by `appendFormatRFC3339` for a zone `offset` seconds
east of UTC: `Z` when the offset is zero, else the sign, hours and minutes of
`zone := offset / 60`, Go's division that truncates toward zero.  The seconds
of the offset are not written. -/
def appendZone (offset : Int) : Bytes :=
  if offset = 0 then [0x5A]
  else
    (if offset.tdiv 60 < 0 then 0x2D else 0x2B)
      :: (appendInt2 ((offset.tdiv 60).natAbs / 60) ++ [0x3A]
        ++ appendInt2 ((offset.tdiv 60).natAbs % 60))

/-- Errors of the store and of the libraries it calls. -/
inductive Error where
  /-- Message `task not found` of `MarkDone`. -/
  | taskNotFound
  /-- The bbolt error `ErrKeyRequired`. -/
  | keyRequired
  /-- The bbolt error `ErrKeyTooLarge`. -/
  | keyTooLarge
  /-- The bbolt error `ErrValueTooLarge`. -/
  | valueTooLarge
  /-- `Time.MarshalJSON`: year outside of range [0,9999]. -/
  | yearOutOfRange
  /-- `Time.MarshalJSON`: timezone hour outside of range [0,23]. -/
  | zoneHourOutOfRange
  /-- `json.Unmarshal` rejected the bytes. -/
  | unmarshal
deriving DecidableEq

/-- Model of `Time.MarshalJSON`: the quoted RFC 3339 form with nanoseconds,
or the error of `appendStrictRFC3339` (a year that is not four digits wide,
or a zone that is not `Z` and has 24 hours or more). -/
def Time.MarshalJSON (t : Time) : Except Error Bytes :=
  if t.year < 0 ∨ 9999 < t.year then .error .yearOutOfRange
  else if t.offset ≠ 0 ∧ 24 ≤ (t.offset.tdiv 60).natAbs / 60 then .error .zoneHourOutOfRange
  else
    .ok (0x22 :: (appendInt4 t.year.toNat ++ [0x2D] ++ appendInt2 t.month ++ [0x2D]
      ++ appendInt2 t.day ++ [0x54] ++ appendInt2 t.hour ++ [0x3A] ++ appendInt2 t.minute
      ++ [0x3A] ++ appendInt2 t.second ++ appendNano t.nsec ++ appendZone t.offset ++ [0x22]))

/-- Reads `n` decimal digits. -/
def readFixed : Nat → Bytes → Nat → Option (Nat × Bytes)
  | 0, s, acc => some (acc, s)
  | _ + 1, [], _ => none
  | n + 1, c :: rest, acc =>
    match digitVal c with
    | some d => readFixed n rest (acc * 10 + d)
    | none => none

/-- Reads the byte `c`. -/
def expectByte (c : Nat) (s : Bytes) : Option Bytes :=
  match s with
  | b :: rest => if b = c then some rest else none
  | [] => none

/-- Reads the bytes `lit`. -/
def expect : Bytes → Bytes → Option Bytes
  | [], s => some s
  | c :: lit, s =>
    match expectByte c s with
    | some rest => expect lit rest
    | none => none

/-- The fractional second of `parseRFC3339`: a point followed by digits, of
which the first nine count (`parseNanoseconds`). -/
def parseFrac (s : Bytes) : Nat × Bytes :=
  match s with
  | 0x2E :: d :: rest =>
    if (digitVal d).isSome then
      match readDigits (d :: rest) 0 0 with
      | (_, cnt, rest1) =>
        match readDigits ((d :: rest).take (min cnt 9)) 0 0 with
        | (v, _, _) => (v * 10 ^ (9 - min cnt 9), rest1)
    else (0, s)
  | _ => (0, s)

/-- The zone of `parseStrictRFC3339`: `Z`, or a sign, two digits of hours up
to 23, a colon and two digits of minutes up to 59; the result is the offset
`(hr*60 + min)*60` in seconds, negated after a minus sign. -/
def parseZone (s : Bytes) : Option (Int × Bytes) :=
  match s with
  | [] => none
  | c :: rest =>
    if c = 0x5A then some (0, rest)
    else if c = 0x2B ∨ c = 0x2D then
      match readFixed 2 rest 0 with
      | none => none
      | some (hr, rest1) =>
        match expectByte 0x3A rest1 with
        | none => none
        | some rest2 =>
          match readFixed 2 rest2 0 with
          | none => none
          | some (mn, rest3) =>
            if 23 < hr ∨ 59 < mn then none
            else some (if c = 0x2D then -(((hr * 60 + mn) * 60 : Nat) : Int)
              else (((hr * 60 + mn) * 60 : Nat) : Int), rest3)
    else none

/-- Reads `n` decimal digits and then the byte `sep`. -/
def readField (n sep : Nat) (s : Bytes) : Option (Nat × Bytes) :=
  match readFixed n s 0 with
  | none => none
  | some (v, rest) =>
    match expectByte sep rest with
    | none => none
    | some rest1 => some (v, rest1)

/-- The date `2006-01-02T` of `parseRFC3339`: year, month and day. -/
def parseDate (s : Bytes) : Option ((Nat × Nat × Nat) × Bytes) :=
  match readField 4 0x2D s with
  | none => none
  | some (year, s1) =>
    match readField 2 0x2D s1 with
    | none => none
    | some (month, s2) =>
      match readField 2 0x54 s2 with
      | none => none
      | some (day, s3) => some ((year, month, day), s3)

/-- The clock `15:04:05` of `parseRFC3339`: hour, minute and second. -/
def parseClock (s : Bytes) : Option ((Nat × Nat × Nat) × Bytes) :=
  match readField 2 0x3A s with
  | none => none
  | some (hour, s1) =>
    match readField 2 0x3A s1 with
    | none => none
    | some (minute, s2) =>
      match readFixed 2 s2 0 with
      | none => none
      | some (second, s3) => some ((hour, minute, second), s3)

/-- The range checks of `parseRFC3339` on the fields read. -/
def fieldsInRange (year month day hour minute second : Nat) : Bool :=
  decide (1 ≤ month ∧ month ≤ 12 ∧ 1 ≤ day ∧ day ≤ daysIn month year
    ∧ hour ≤ 23 ∧ minute ≤ 59 ∧ second ≤ 59)

/-- Model of `Time.UnmarshalJSON` on a quoted RFC 3339 time at the head of `s`
(`parseStrictRFC3339` with the range checks of `parseRFC3339`). -/
def parseTime (s : Bytes) : Option (Time × Bytes) :=
  match expectByte 0x22 s with
  | none => none
  | some s1 =>
    match parseDate s1 with
    | none => none
    | some (ymd, s2) =>
      match parseClock s2 with
      | none => none
      | some (hms, s3) =>
        match parseZone (parseFrac s3).2 with
        | none => none
        | some (offset, s4) =>
          match expectByte 0x22 s4 with
          | none => none
          | some s5 =>
            if fieldsInRange ymd.1 ymd.2.1 ymd.2.2 hms.1 hms.2.1 hms.2.2 then
              some (⟨ymd.1, ymd.2.1, ymd.2.2, hms.1, hms.2.1, hms.2.2,
                (parseFrac s3).1, offset⟩, s5)
            else none

/-! ## `pkg/task`: the entity and its JSON form -/

/-- The struct `task.Task`. -/
structure Task where
  ID : Nat
  Text : Bytes
  Created : Time
  Due : Time
  Done : Bool
deriving DecidableEq

/-- The bytes of `{"id":`. -/
def keyID : Bytes := [0x7B, 0x22, 0x69, 0x64, 0x22, 0x3A]

/-- The bytes of `,"text":`. -/
def keyText : Bytes := [0x2C, 0x22, 0x74, 0x65, 0x78, 0x74, 0x22, 0x3A]

/-- The bytes of `,"created":`. -/
def keyCreated : Bytes :=
  [0x2C, 0x22, 0x63, 0x72, 0x65, 0x61, 0x74, 0x65, 0x64, 0x22, 0x3A]

/-- The bytes of `,"due":`. -/
def keyDue : Bytes := [0x2C, 0x22, 0x64, 0x75, 0x65, 0x22, 0x3A]

/-- The bytes of `,"done":`. -/
def keyDone : Bytes := [0x2C, 0x22, 0x64, 0x6F, 0x6E, 0x65, 0x22, 0x3A]

/-- The JSON literal `true` or `false`. -/
def appendBool (b : Bool) : Bytes :=
  if b then [0x74, 0x72, 0x75, 0x65] else [0x66, 0x61, 0x6C, 0x73, 0x65]

/-- Model of `json.Marshal(t)` for a `task.Task`: the object with the keys
`id`, `text`, `created`, `due`, `done` of the struct tags in field order, or
the error of the first `Time.MarshalJSON` that fails. -/
def Marshal (t : Task) : Except Error Bytes :=
  match t.Created.MarshalJSON with
  | .error e => .error e
  | .ok created =>
    match t.Due.MarshalJSON with
    | .error e => .error e
    | .ok due =>
      .ok (keyID ++ formatUint t.ID ++ keyText ++ appendString t.Text ++ keyCreated ++ created
        ++ keyDue ++ due ++ keyDone ++ appendBool t.Done ++ [0x7D])

/-- The JSON literal `true` or `false` at the head of `s`. -/
def parseBool (s : Bytes) : Option (Bool × Bytes) :=
  match expect [0x74, 0x72, 0x75, 0x65] s with
  | some rest => some (true, rest)
  | none =>
    match expect [0x66, 0x61, 0x6C, 0x73, 0x65] s with
    | some rest => some (false, rest)
    | none => none

/-- Reads the key bytes `key` and then a value with `p`. -/
def field {α : Type} (key : Bytes) (p : Bytes → Option (α × Bytes)) (s : Bytes) :
    Option (α × Bytes) :=
  match expect key s with
  | none => none
  | some rest => p rest

/-- The five members of the object in the order `json.Marshal` writes them. -/
def parseTask (s : Bytes) : Option (Task × Bytes) :=
  match field keyID parseUint s with
  | none => none
  | some (id, s1) =>
    match field keyText parseString s1 with
    | none => none
    | some (text, s2) =>
      match field keyCreated parseTime s2 with
      | none => none
      | some (created, s3) =>
        match field keyDue parseTime s3 with
        | none => none
        | some (due, s4) =>
          match field keyDone parseBool s4 with
          | none => none
          | some (done, s5) => some (⟨id, text, created, due, done⟩, s5)

/-- Model of `json.Unmarshal(data, &t)` for a `task.Task` on the compact
layout written by `Marshal`; any other input is a decoding error here, also
where `json.Unmarshal` would accept it. -/
def Unmarshal (data : Bytes) : Except Error Task :=
  match parseTask data with
  | some (t, [0x7D]) => .ok t
  | _ => .error .unmarshal

/-! ## `bbolt`: one bucket -/

/-- Model of `bytes.Compare`. -/
def bytesCompare : Bytes → Bytes → Ordering
  | [], [] => .eq
  | [], _ :: _ => .lt
  | _ :: _, [] => .gt
  | a :: as, b :: bs =>
    if a < b then .lt else if b < a then .gt else bytesCompare as bs

/-- A bbolt bucket: its key/value pairs in key order and its sequence. -/
structure Bucket where
  entries : List (Bytes × Bytes)
  sequence : Nat
deriving DecidableEq

/-- The constant `MaxKeySize` of bbolt. -/
def MaxKeySize : Nat := 32768

/-- The constant `MaxValueSize` of bbolt. -/
def MaxValueSize : Nat := 2 ^ 31 - 2

/-- The value stored under `key` in a key-ordered list. -/
def lookup : List (Bytes × Bytes) → Bytes → Option Bytes
  | [], _ => none
  | (k, v) :: rest, key =>
    match bytesCompare k key with
    | .lt => lookup rest key
    | .eq => some v
    | .gt => none

/-- Writes `key ↦ value` at its place in a key-ordered list. -/
def insert : List (Bytes × Bytes) → Bytes → Bytes → List (Bytes × Bytes)
  | [], key, value => [(key, value)]
  | (k, v) :: rest, key, value =>
    match bytesCompare k key with
    | .lt => (k, v) :: insert rest key value
    | .eq => (key, value) :: rest
    | .gt => (key, value) :: (k, v) :: rest

/-- Removes `key` from a key-ordered list. -/
def remove : List (Bytes × Bytes) → Bytes → List (Bytes × Bytes)
  | [], _ => []
  | (k, v) :: rest, key =>
    match bytesCompare k key with
    | .lt => (k, v) :: remove rest key
    | .eq => rest
    | .gt => (k, v) :: rest

/-- Model of `Bucket.Get`: `none` is the `nil` of a missing key. -/
def Bucket.Get (b : Bucket) (key : Bytes) : Option Bytes := lookup b.entries key

/-- Model of `Bucket.Put` in a writable transaction. -/
def Bucket.Put (b : Bucket) (key value : Bytes) : Option Error × Bucket :=
  if key.length = 0 then (some .keyRequired, b)
  else if MaxKeySize < key.length then (some .keyTooLarge, b)
  else if MaxValueSize < value.length then (some .valueTooLarge, b)
  else (none, { b with entries := insert b.entries key value })

/-- Model of `Bucket.Delete` in a writable transaction: a missing key is not
an error. -/
def Bucket.Delete (b : Bucket) (key : Bytes) : Option Error × Bucket :=
  (none, { b with entries := remove b.entries key })

/-- Model of `Bucket.NextSequence` in a writable transaction: the `uint64`
sequence is incremented and returned. -/
def Bucket.NextSequence (b : Bucket) : Nat × Bucket :=
  ((b.sequence + 1) % 2 ^ 64, { b with sequence := (b.sequence + 1) % 2 ^ 64 })

/-! ## `internal/store` -/

/-- The struct `Store`: the database holds the one bucket `tasks`. -/
structure Store where
  db : Bucket
deriving DecidableEq

/-- Model of `NewBoltStore` on a path with no database yet: the bucket is
created empty with sequence zero. -/
def NewBoltStore : Store := { db := { entries := [], sequence := 0 } }

/-- Model of `db.Update`: the closure's bucket is committed when it returns
no error and dropped otherwise. -/
def Store.Update {α : Type} (s : Store) (fn : Bucket → α × Option Error × Bucket) :
    α × Option Error × Store :=
  match fn s.db with
  | (a, none, b) => (a, none, { db := b })
  | (a, some e, _) => (a, some e, s)

/-- The function `itob`: the 8-byte big-endian form of a `uint64`. -/
def itob (v : Nat) : Bytes :=
  [v / 2 ^ 56 % 256, v / 2 ^ 48 % 256, v / 2 ^ 40 % 256, v / 2 ^ 32 % 256,
   v / 2 ^ 24 % 256, v / 2 ^ 16 % 256, v / 2 ^ 8 % 256, v % 256]

/-- The method `Store.AddTask`; `now` is the reading of `time.Now()`.  The
result is the returned id, the returned error and the store afterwards. -/
def Store.AddTask (s : Store) (now : Time) (text : Bytes) (due : Time) :
    Nat × Option Error × Store :=
  s.Update fun b =>
    let (seq, b1) := b.NextSequence
    let id := seq
    let t : Task := { ID := id, Text := text, Created := now, Due := due, Done := false }
    match Marshal t with
    | .error e => (id, some e, b1)
    | .ok buf =>
      let (err, b2) := b1.Put (itob id) buf
      (id, err, b2)

/-- The `ForEach` callback of `ListTasks` run over the pairs in key order:
the tasks appended so far and the error that stopped the iteration.  The
decoder called on each value, `json.Unmarshal` into a fresh `task.Task`, is
the parameter `unmarshal`. -/
def listLoop (unmarshal : Bytes → Except Error Task) (includeDone : Bool) :
    List (Bytes × Bytes) → List Task → List Task × Option Error
  | [], tasks => (tasks, none)
  | (_, v) :: rest, tasks =>
    match unmarshal v with
    | .error e => (tasks, some e)
    | .ok t =>
      if !includeDone && t.Done then listLoop unmarshal includeDone rest tasks
      else listLoop unmarshal includeDone rest (tasks ++ [t])

/-- The method `Store.ListTasks` over the decoder `unmarshal`: the returned
slice and error.  The method uses nothing of `json.Unmarshal` but its result
on each stored value, so every function from bytes to a task or an error can
take its place. -/
def Store.ListTasksWith (unmarshal : Bytes → Except Error Task) (s : Store)
    (includeDone : Bool) : List Task × Option Error :=
  listLoop unmarshal includeDone s.db.entries []

/-- The method `Store.ListTasks` with the model `Unmarshal` as its decoder:
the returned slice and error. -/
def Store.ListTasks (s : Store) (includeDone : Bool) : List Task × Option Error :=
  s.ListTasksWith Unmarshal includeDone

/-- The method `Store.MarkDone`: the returned error and the store afterwards. -/
def Store.MarkDone (s : Store) (id : Nat) : Option Error × Store :=
  (s.Update fun b =>
    match b.Get (itob id) with
    | none => ((), some .taskNotFound, b)
    | some data =>
      match Unmarshal data with
      | .error e => ((), some e, b)
      | .ok t =>
        match Marshal { t with Done := true } with
        | .error e => ((), some e, b)
        | .ok buf =>
          let (err, b1) := b.Put (itob id) buf
          ((), err, b1)).2

/-- The method `Store.DeleteTask`: the returned error and the store afterwards. -/
def Store.DeleteTask (s : Store) (id : Nat) : Option Error × Store :=
  (s.Update fun b =>
    let (err, b1) := b.Delete (itob id)
    ((), err, b1)).2

/-! ## Notions used to state the properties -/

/-- The pairs are in strictly increasing key order, the order in which a
bbolt cursor visits them. -/
def KeysSorted (l : List (Bytes × Bytes)) : Prop :=
  l.Pairwise (fun x y => bytesCompare x.1 y.1 = .lt)

/-- The tasks that the stored values decode to, in key order. -/
def decodeAll (l : List (Bytes × Bytes)) : List Task :=
  l.filterMap (fun kv => match Unmarshal kv.2 with
    | .ok t => some t
    | .error _ => none)

/-- A call of one of the store's methods. -/
inductive Op where
  /-- `AddTask(text, due)` made when the clock reads `now`. -/
  | addTask (now : Time) (text : Bytes) (due : Time)
  /-- `ListTasks(includeDone)`. -/
  | listTasks (includeDone : Bool)
  /-- `MarkDone(id)`. -/
  | markDone (id : Nat)
  /-- `DeleteTask(id)`. -/
  | deleteTask (id : Nat)

/-- Makes the calls in order: the store afterwards and the ids returned by
the `AddTask` calls that returned no error, in call order. -/
def run : Store → List Op → Store × List Nat
  | s, [] => (s, [])
  | s, .addTask now text due :: ops =>
    match s.AddTask now text due with
    | (id, none, s1) => ((run s1 ops).1, id :: (run s1 ops).2)
    | (_, some _, s1) => run s1 ops
  | s, .listTasks _ :: ops => run s ops
  | s, .markDone id :: ops => run (s.MarkDone id).2 ops
  | s, .deleteTask id :: ops => run (s.DeleteTask id).2 ops

/-- All bytes are decimal digits. -/
def IsDigits (ds : Bytes) : Prop := ∀ d ∈ ds, 48 ≤ d ∧ d ≤ 57

/-- The value of a digit string read after `acc`. -/
def digitsVal (acc : Nat) (ds : Bytes) : Nat := ds.foldl (fun a d => a * 10 + (d - 48)) acc

/-- The loop of `coerceUTF8`. -/
def coerceLoop : Nat → Bytes → Bytes
  | 0, _ => []
  | _, [] => []
  | fuel + 1, b :: rest =>
    if b < 0x80 then b :: coerceLoop fuel rest
    else if (decodeRune (b :: rest)).2 = 1 then [0xEF, 0xBF, 0xBD] ++ coerceLoop fuel rest
    else (b :: rest).take (decodeRune (b :: rest)).2
      ++ coerceLoop fuel (rest.drop ((decodeRune (b :: rest)).2 - 1))

/-- The string with every byte that is not part of a valid UTF-8 sequence
replaced by the encoding of U+FFFD: what a Go string becomes when it is
written by `json.Marshal` and read back. -/
def coerceUTF8 (p : Bytes) : Bytes := coerceLoop p.length p

/-- The head of `s` is one well-formed multi-byte UTF-8 sequence: `w` bytes
that decode to the rune `c` whatever follows them and that `c` encodes to. -/
def IsSeq (s : Bytes) (c w : Nat) : Prop :=
  2 ≤ w ∧ w ≤ 4 ∧ w ≤ s.length ∧ (∀ tl, decodeRune (s.take w ++ tl) = (c, w)) ∧
    encodeRune c = s.take w ∧ 0x80 ≤ c

/-- The time as it is read back from its RFC 3339 form: the same civil
fields, with the zone offset cut to the whole minutes that were written
(`offset / 60 * 60` with Go's truncating division).  For a zone offset that
is not a whole number of minutes this is another instant. -/
def Time.normalize (t : Time) : Time := { t with offset := t.offset.tdiv 60 * 60 }

/-- The time can be carried by RFC 3339: its fields are those of a
`time.Time`, its year has four digits, and its zone offset is a whole number
of minutes and under 24 hours. -/
def Time.Representable (t : Time) : Prop := t.Valid ∧ t.InRange ∧ t.offset % 60 = 0

instance (t : Time) : Decidable t.Representable := by
  unfold Time.Representable; infer_instance

/-- What a task becomes when it is written by `json.Marshal` and read back:
its text is coerced to valid UTF-8 and the zone offsets of its times are cut
to whole minutes. -/
def Task.coerce (t : Task) : Task :=
  { t with Text := coerceUTF8 t.Text, Created := t.Created.normalize, Due := t.Due.normalize }

/-- A task as the store reads it back: a 64-bit id, a text that is valid
UTF-8 and two times that RFC 3339 can carry. -/
def Task.Canonical (t : Task) : Prop :=
  t.ID < 2 ^ 64 ∧ ValidUTF8 t.Text ∧ t.Created.Representable ∧ t.Due.Representable

instance (t : Task) : Decidable t.Canonical := by
  unfold Task.Canonical; infer_instance

/-- The pair is a record as the store writes it: the value decodes to a
canonical task, the key is `itob` of that task's id, and the task's JSON form
fits a bbolt value. -/
def GoodEntry (kv : Bytes × Bytes) : Prop :=
  ∃ t, Task.Canonical t ∧ Unmarshal kv.2 = .ok t ∧ kv.1 = itob t.ID ∧
    ∃ buf, Marshal t = .ok buf ∧ buf.length ≤ MaxValueSize

/-- The invariant of the store: the records are in key order, each is a
`GoodEntry`, and the sequence is a `uint64`. -/
def Inv (s : Store) : Prop :=
  KeysSorted s.db.entries ∧ (∀ kv ∈ s.db.entries, GoodEntry kv) ∧ s.db.sequence < 2 ^ 64

/-- The store states reached from a freshly created database by calls of
`AddTask`, `MarkDone` and `DeleteTask`, with the number of `AddTask` calls
that returned no error.  A call that returns an error leaves the store as it
was, and so does `ListTasks`; times passed in are values of `time.Time`. -/
inductive ReachableIn : Nat → Store → Prop where
  | opened : ReachableIn 0 NewBoltStore
  | addTask {n : Nat} {s : Store} (now : Time) (text : Bytes) (due : Time) :
      ReachableIn n s → now.Valid → due.Valid → (s.AddTask now text due).2.1 = none →
      ReachableIn (n + 1) (s.AddTask now text due).2.2
  | markDone {n : Nat} {s : Store} (id : Nat) :
      ReachableIn n s → id < 2 ^ 64 → ReachableIn n (s.MarkDone id).2
  | deleteTask {n : Nat} {s : Store} (id : Nat) :
      ReachableIn n s → id < 2 ^ 64 → ReachableIn n (s.DeleteTask id).2

/-- The store state is reachable from a freshly created database. -/
def Reachable (s : Store) : Prop := ∃ n, ReachableIn n s

/-- A clock reading used in the examples: 2024-01-01T12:34:56.123456+05:30. -/
def exampleNow : Time := ⟨2024, 1, 1, 12, 34, 56, 123456000, 19800⟩

/-- A due date used in the examples: 2024-01-10T00:00:00Z. -/
def exampleDue : Time := ⟨2024, 1, 10, 0, 0, 0, 0, 0⟩

/-- A due date used in the examples: 2024-01-05T00:00:00Z. -/
def exampleDue2 : Time := ⟨2024, 1, 5, 0, 0, 0, 0, 0⟩

/-- The due date 2024-01-10T00:00:00 in the zone `time.FixedZone("", 30)`,
thirty seconds east of UTC. -/
def halfMinuteDue : Time := ⟨2024, 1, 10, 0, 0, 0, 0, 30⟩

/-- The text `Buy milk`. -/
def buyMilk : Bytes := [66, 117, 121, 32, 109, 105, 108, 107]

/-- The text `Pay rent`. -/
def payRent : Bytes := [80, 97, 121, 32, 114, 101, 110, 116]

/-- A fresh store after `AddTask("Buy milk", 2024-01-10)`. -/
def exampleStore1 : Store := (NewBoltStore.AddTask exampleNow buyMilk exampleDue).2.2

/-- The store `exampleStore1` after `AddTask("Pay rent", 2024-01-05)`. -/
def exampleStore2 : Store := (exampleStore1.AddTask exampleNow payRent exampleDue2).2.2

/-- The store `exampleStore2` after `MarkDone(1)`. -/
def exampleStore3 : Store := (exampleStore2.MarkDone 1).2

/-- The calls of `n` rounds of adding a task and deleting it again, on a store
whose next id is `i + 1`: the store holds at most one more task than before
at any time. -/
def churn : Nat → Nat → List Op
  | 0, _ => []
  | n + 1, i =>
    Op.addTask exampleNow buyMilk exampleDue :: Op.deleteTask ((i + 1) % 2 ^ 64) :: churn n (i + 1)

/-- The store `exampleStore1`, which holds task 1, with its sequence at zero:
the state `2^64 - 1` rounds of adding a task and deleting it again lead to. -/
def wrappedStore : Store := ⟨⟨exampleStore1.db.entries, 0⟩⟩

/-- Encoding a task to its persisted bytes and decoding them again. -/
def roundTrip (t : Task) : Except Error Task :=
  match Marshal t with
  | .ok buf => Unmarshal buf
  | .error e => .error e

/-! ## Byte order and `itob` -/

theorem bytesCompare_self (a : Bytes) : bytesCompare a a = .eq := by
  induction a with
  | nil => rfl
  | cons x xs ih => simp [bytesCompare, ih]

theorem bytesCompare_eq_iff (a b : Bytes) : bytesCompare a b = .eq ↔ a = b := by
  induction a generalizing b with
  | nil => cases b <;> simp [bytesCompare]
  | cons x xs ih =>
    cases b with
    | nil => simp [bytesCompare]
    | cons y ys =>
      simp only [bytesCompare]
      split_ifs with h1 h2
      · simp; omega
      · simp; omega
      · have : x = y := by omega
        simp [ih, this]

theorem bytesCompare_gt_iff (a b : Bytes) : bytesCompare a b = .gt ↔ bytesCompare b a = .lt := by
  induction a generalizing b with
  | nil => cases b <;> simp [bytesCompare]
  | cons x xs ih =>
    cases b with
    | nil => simp [bytesCompare]
    | cons y ys =>
      simp only [bytesCompare]
      split_ifs <;> first | omega | simp | exact ih ys

theorem bytesCompare_lt_trans {a b c : Bytes} (h1 : bytesCompare a b = .lt)
    (h2 : bytesCompare b c = .lt) : bytesCompare a c = .lt := by
  induction a generalizing b c with
  | nil =>
    cases b with
    | nil => simp [bytesCompare] at h1
    | cons y ys => cases c <;> simp_all [bytesCompare]
  | cons x xs ih =>
    cases b with
    | nil => simp [bytesCompare] at h1
    | cons y ys =>
      cases c with
      | nil => simp [bytesCompare] at h2
      | cons z zs =>
        simp only [bytesCompare] at h1 h2 ⊢
        split_ifs at h1 h2 ⊢ <;> first | omega | rfl | exact ih h1 h2

theorem itob_lt (a b : Nat) (hb : b < 2 ^ 64) (h : a < b) :
    bytesCompare (itob a) (itob b) = .lt := by
  have ha : a < 2 ^ 64 := by omega
  simp only [itob, bytesCompare]
  norm_num at ha hb ⊢
  split_ifs <;> first | rfl | omega

theorem itob_compare (a b : Nat) (ha : a < 2 ^ 64) (hb : b < 2 ^ 64) :
    bytesCompare (itob a) (itob b) = compare a b := by
  rcases Nat.lt_trichotomy a b with h | h | h
  · rw [(compare_lt_iff_lt).2 h]; exact itob_lt a b hb h
  · subst h; rw [bytesCompare_self, (compare_eq_iff_eq).2 rfl]
  · rw [(compare_gt_iff_gt).2 h]; exact (bytesCompare_gt_iff _ _).2 (itob_lt b a ha h)

theorem itob_lt_iff (a b : Nat) (ha : a < 2 ^ 64) (hb : b < 2 ^ 64) :
    bytesCompare (itob a) (itob b) = .lt ↔ a < b := by
  rw [itob_compare a b ha hb]; exact compare_lt_iff_lt

theorem itob_injective (a b : Nat) (ha : a < 2 ^ 64) (hb : b < 2 ^ 64)
    (h : itob a = itob b) : a = b := by
  have := itob_compare a b ha hb
  rw [h, bytesCompare_self] at this
  exact (compare_eq_iff_eq).1 this.symm

/-! ## The key-ordered pair list -/

theorem lookup_none_of_ne (l : List (Bytes × Bytes)) (k : Bytes)
    (h : ∀ kv ∈ l, kv.1 ≠ k) : lookup l k = none := by
  induction l with
  | nil => rfl
  | cons x xs ih =>
    obtain ⟨k', v'⟩ := x
    have hne : k' ≠ k := h (k', v') (by simp)
    have hc : bytesCompare k' k ≠ .eq := fun hh => hne ((bytesCompare_eq_iff _ _).1 hh)
    simp only [lookup]
    split
    · exact ih (fun kv hkv => h kv (List.mem_cons_of_mem _ hkv))
    · contradiction
    · rfl

theorem lookup_some_mem (l : List (Bytes × Bytes)) (k v : Bytes)
    (h : lookup l k = some v) : (k, v) ∈ l := by
  induction l with
  | nil => simp [lookup] at h
  | cons x xs ih =>
    obtain ⟨k', v'⟩ := x
    simp only [lookup] at h
    split at h
    · exact List.mem_cons_of_mem _ (ih h)
    · rename_i hc
      have := (bytesCompare_eq_iff _ _).1 hc
      simp at h
      simp [this, h]
    · simp at h

theorem lookup_of_mem (l : List (Bytes × Bytes)) (k v : Bytes) (hs : KeysSorted l)
    (h : (k, v) ∈ l) : lookup l k = some v := by
  induction l with
  | nil => simp at h
  | cons x xs ih =>
    obtain ⟨k', v'⟩ := x
    rw [KeysSorted, List.pairwise_cons] at hs
    simp only [lookup]
    rcases List.mem_cons.1 h with heq | hmem
    · injection heq with h1 h2
      subst h1; subst h2
      simp [bytesCompare_self]
    · have hlt := hs.1 (k, v) hmem
      simp only at hlt
      rw [hlt]
      exact ih hs.2 hmem

theorem mem_insert_self (l : List (Bytes × Bytes)) (k v : Bytes) : (k, v) ∈ insert l k v := by
  induction l with
  | nil => simp [insert]
  | cons x xs ih =>
    obtain ⟨k', v'⟩ := x
    simp only [insert]
    split <;> simp [ih]

theorem mem_insert (l : List (Bytes × Bytes)) (k v : Bytes) (x : Bytes × Bytes)
    (h : x ∈ insert l k v) : x = (k, v) ∨ x ∈ l := by
  induction l with
  | nil => simp [insert] at h; exact Or.inl h
  | cons y ys ih =>
    obtain ⟨k', v'⟩ := y
    simp only [insert] at h
    split at h
    · rcases List.mem_cons.1 h with h1 | h1
      · exact Or.inr (by simp [h1])
      · rcases ih h1 with h2 | h2
        · exact Or.inl h2
        · exact Or.inr (List.mem_cons_of_mem _ h2)
    · rcases List.mem_cons.1 h with h1 | h1
      · exact Or.inl h1
      · exact Or.inr (List.mem_cons_of_mem _ h1)
    · rcases List.mem_cons.1 h with h1 | h1
      · exact Or.inl h1
      · exact Or.inr h1

theorem insert_sorted (l : List (Bytes × Bytes)) (k v : Bytes) (hs : KeysSorted l) :
    KeysSorted (insert l k v) := by
  induction l with
  | nil => simp [insert, KeysSorted]
  | cons y ys ih =>
    obtain ⟨k', v'⟩ := y
    have hs' := hs
    rw [KeysSorted, List.pairwise_cons] at hs
    simp only [insert]
    split
    · rename_i hc
      rw [KeysSorted, List.pairwise_cons]
      refine ⟨?_, ih hs.2⟩
      intro x hx
      rcases mem_insert ys k v x hx with h1 | h1
      · subst h1; exact hc
      · exact hs.1 x h1
    · rename_i hc
      have hk : k' = k := (bytesCompare_eq_iff _ _).1 hc
      subst hk
      rw [KeysSorted, List.pairwise_cons]
      exact ⟨hs.1, hs.2⟩
    · rename_i hc
      have hlt : bytesCompare k k' = .lt := (bytesCompare_gt_iff _ _).1 hc
      rw [KeysSorted, List.pairwise_cons]
      refine ⟨?_, hs'⟩
      intro x hx
      rcases List.mem_cons.1 hx with h1 | h1
      · subst h1; exact hlt
      · exact bytesCompare_lt_trans hlt (hs.1 x h1)

theorem remove_eq_filter (l : List (Bytes × Bytes)) (k : Bytes) (hs : KeysSorted l) :
    remove l k = l.filter (fun kv => decide (kv.1 ≠ k)) := by
  induction l with
  | nil => rfl
  | cons y ys ih =>
    obtain ⟨k', v'⟩ := y
    rw [KeysSorted, List.pairwise_cons] at hs
    simp only [remove]
    split
    · rename_i hc
      have hne : k' ≠ k := fun h => by rw [h, bytesCompare_self] at hc; cases hc
      rw [List.filter_cons_of_pos (by simpa using hne), ih hs.2]
    · rename_i hc
      have hk : k' = k := (bytesCompare_eq_iff _ _).1 hc
      subst hk
      rw [List.filter_cons_of_neg (by simp)]
      symm
      rw [List.filter_eq_self]
      intro x hx
      have := hs.1 x hx
      have hne : x.1 ≠ k' := fun h => by rw [h, bytesCompare_self] at this; cases this
      simpa using hne
    · rename_i hc
      have hlt : bytesCompare k k' = .lt := (bytesCompare_gt_iff _ _).1 hc
      have hne : k' ≠ k := fun h => by rw [h, bytesCompare_self] at hc; cases hc
      rw [List.filter_cons_of_pos (by simpa using hne)]
      congr 1
      symm
      rw [List.filter_eq_self]
      intro x hx
      have := bytesCompare_lt_trans hlt (hs.1 x hx)
      have hne : x.1 ≠ k := fun h => by rw [h, bytesCompare_self] at this; cases this
      simpa using hne

theorem remove_sorted (l : List (Bytes × Bytes)) (k : Bytes) (hs : KeysSorted l) :
    KeysSorted (remove l k) := by
  rw [remove_eq_filter l k hs]
  exact List.Pairwise.sublist (List.filter_sublist l) hs

theorem insert_eq_map (l : List (Bytes × Bytes)) (k v v0 : Bytes) (hs : KeysSorted l)
    (h : lookup l k = some v0) :
    insert l k v = l.map (fun kv => if kv.1 = k then (k, v) else kv) := by
  induction l with
  | nil => simp [lookup] at h
  | cons y ys ih =>
    obtain ⟨k', v'⟩ := y
    rw [KeysSorted, List.pairwise_cons] at hs
    simp only [lookup] at h
    simp only [insert]
    split
    · rename_i hc
      rw [hc] at h
      have hne : k' ≠ k := fun h => by rw [h, bytesCompare_self] at hc; cases hc
      simp only [List.map_cons, hne, if_false]
      rw [ih hs.2 h]
    · rename_i hc
      have hk : k' = k := (bytesCompare_eq_iff _ _).1 hc
      subst hk
      simp only [List.map_cons, if_true]
      congr 1
      symm
      conv_rhs => rw [← List.map_id ys]
      apply List.map_congr_left
      intro x hx
      have := hs.1 x hx
      have hne : x.1 ≠ k' := fun h => by rw [h, bytesCompare_self] at this; cases this
      simp [hne]
    · rename_i hc
      rw [hc] at h
      simp at h

theorem lookup_insert_self (l : List (Bytes × Bytes)) (k v : Bytes) :
    lookup (insert l k v) k = some v := by
  induction l with
  | nil => simp [insert, lookup, bytesCompare_self]
  | cons x xs ih =>
    obtain ⟨k', v'⟩ := x
    simp only [insert]
    split
    · rename_i hc; simp only [lookup, hc, ih]
    · simp only [lookup, bytesCompare_self]
    · simp only [lookup, bytesCompare_self]

theorem remove_insert_absent (l : List (Bytes × Bytes)) (k v : Bytes)
    (h : ∀ kv ∈ l, kv.1 ≠ k) : remove (insert l k v) k = l := by
  induction l with
  | nil => simp [insert, remove, bytesCompare_self]
  | cons x xs ih =>
    obtain ⟨k', v'⟩ := x
    have hne : k' ≠ k := h (k', v') (by simp)
    have hxs : ∀ kv ∈ xs, kv.1 ≠ k := fun kv hkv => h kv (List.mem_cons_of_mem _ hkv)
    simp only [insert]
    split
    · rename_i hc
      simp only [remove, hc, ih hxs]
    · rename_i hc
      exact absurd ((bytesCompare_eq_iff _ _).1 hc) hne
    · simp only [remove, bytesCompare_self]

/-! ## The store's methods unfolded -/

theorem itob_length (v : Nat) : (itob v).length = 8 := rfl

theorem AddTask_eq (s : Store) (now : Time) (text : Bytes) (due : Time) :
    s.AddTask now text due =
      match Marshal ⟨(s.db.sequence + 1) % 2 ^ 64, text, now, due, false⟩ with
      | .error e => ((s.db.sequence + 1) % 2 ^ 64, some e, s)
      | .ok buf =>
        if MaxValueSize < buf.length then ((s.db.sequence + 1) % 2 ^ 64, some .valueTooLarge, s)
        else ((s.db.sequence + 1) % 2 ^ 64, none,
          ⟨⟨insert s.db.entries (itob ((s.db.sequence + 1) % 2 ^ 64)) buf,
            (s.db.sequence + 1) % 2 ^ 64⟩⟩) := by
  simp only [Store.AddTask, Store.Update, Bucket.NextSequence]
  cases hm : Marshal ⟨(s.db.sequence + 1) % 2 ^ 64, text, now, due, false⟩ with
  | error e => rfl
  | ok buf =>
    simp only [Bucket.Put, itob_length, MaxKeySize]
    by_cases hl : MaxValueSize < buf.length
    · simp [hl]
    · simp [hl]

theorem MarkDone_eq (s : Store) (id : Nat) :
    s.MarkDone id =
      match lookup s.db.entries (itob id) with
      | none => (some .taskNotFound, s)
      | some data =>
        match Unmarshal data with
        | .error e => (some e, s)
        | .ok t =>
          match Marshal { t with Done := true } with
          | .error e => (some e, s)
          | .ok buf =>
            if MaxValueSize < buf.length then (some .valueTooLarge, s)
            else (none, ⟨⟨insert s.db.entries (itob id) buf, s.db.sequence⟩⟩) := by
  simp only [Store.MarkDone, Store.Update, Bucket.Get]
  cases hl : lookup s.db.entries (itob id) with
  | none => rfl
  | some data =>
    dsimp only
    cases hu : Unmarshal data with
    | error e => rfl
    | ok t =>
      dsimp only
      cases hm : Marshal { t with Done := true } with
      | error e => rfl
      | ok buf =>
        simp only [Bucket.Put, itob_length, MaxKeySize]
        by_cases hl : MaxValueSize < buf.length
        · simp [hl]
        · simp [hl]

theorem DeleteTask_eq (s : Store) (id : Nat) :
    s.DeleteTask id = (none, ⟨⟨remove s.db.entries (itob id), s.db.sequence⟩⟩) := rfl

theorem listLoop_eq (inc : Bool) (l : List (Bytes × Bytes)) (acc : List Task)
    (h : ∀ kv ∈ l, ∃ t, Unmarshal kv.2 = .ok t) :
    listLoop Unmarshal inc l acc
      = (acc ++ (decodeAll l).filter (fun t => inc || !t.Done), none) := by
  induction l generalizing acc with
  | nil => simp [listLoop, decodeAll]
  | cons x xs ih =>
    obtain ⟨k, v⟩ := x
    obtain ⟨t, ht⟩ := h (k, v) (by simp)
    have hxs : ∀ kv ∈ xs, ∃ t, Unmarshal kv.2 = .ok t :=
      fun kv hkv => h kv (List.mem_cons_of_mem _ hkv)
    simp only at ht
    have hd : decodeAll ((k, v) :: xs) = t :: decodeAll xs := by
      simp [decodeAll, List.filterMap_cons, ht]
    rw [hd]
    simp only [listLoop, ht]
    cases inc <;> cases hdone : t.Done <;> simp [ih _ hxs, List.filter_cons, hdone]

theorem decodeAll_forall₂ (l : List (Bytes × Bytes))
    (h : ∀ kv ∈ l, ∃ t, Unmarshal kv.2 = .ok t) :
    List.Forall₂ (fun kv t => Unmarshal kv.2 = .ok t) l (decodeAll l) := by
  induction l with
  | nil => simp [decodeAll]
  | cons x xs ih =>
    obtain ⟨t, ht⟩ := h x (by simp)
    have hd : decodeAll (x :: xs) = t :: decodeAll xs := by
      simp [decodeAll, List.filterMap_cons, ht]
    rw [hd]
    exact List.Forall₂.cons ht (ih (fun kv hkv => h kv (List.mem_cons_of_mem _ hkv)))


theorem listLoop_forall₂ (unmarshal : Bytes → Except Error Task) (inc : Bool)
    (l : List (Bytes × Bytes)) (acc : List Task) (h : ∀ kv ∈ l, ∃ t, unmarshal kv.2 = .ok t) :
    ∃ ts, List.Forall₂ (fun kv t => unmarshal kv.2 = .ok t) l ts ∧
      listLoop unmarshal inc l acc = (acc ++ ts.filter (fun t => inc || !t.Done), none) := by
  induction l generalizing acc with
  | nil => exact ⟨[], List.Forall₂.nil, by simp [listLoop]⟩
  | cons x xs ih =>
    obtain ⟨k, v⟩ := x
    obtain ⟨t, ht⟩ := h (k, v) (by simp)
    have hxs : ∀ kv ∈ xs, ∃ t, unmarshal kv.2 = .ok t :=
      fun kv hkv => h kv (List.mem_cons_of_mem _ hkv)
    simp only at ht
    by_cases hskip : (!inc && t.Done) = true
    · obtain ⟨ts, h1, h2⟩ := ih acc hxs
      refine ⟨t :: ts, List.Forall₂.cons ht h1, ?_⟩
      simp only [listLoop, ht, hskip, if_true, h2]
      have : (inc || !t.Done) = false := by
        cases inc <;> cases hd : t.Done <;> simp_all
      simp [List.filter_cons, this]
    · obtain ⟨ts, h1, h2⟩ := ih (acc ++ [t]) hxs
      refine ⟨t :: ts, List.Forall₂.cons ht h1, ?_⟩
      simp only [listLoop, ht, hskip, h2]
      have : (inc || !t.Done) = true := by
        cases inc <;> cases hd : t.Done <;> simp_all
      simp [List.filter_cons, this]

theorem forall₂_decode_unique (unmarshal : Bytes → Except Error Task)
    (l : List (Bytes × Bytes)) (ts ts' : List Task)
    (h1 : List.Forall₂ (fun kv t => unmarshal kv.2 = .ok t) l ts)
    (h2 : List.Forall₂ (fun kv t => unmarshal kv.2 = .ok t) l ts') : ts' = ts := by
  induction h1 generalizing ts' with
  | nil => cases h2; rfl
  | cons hx _ ih =>
    cases h2 with
    | cons hy hrest =>
      rw [hx] at hy
      injection hy with hy
      rw [hy, ih _ hrest]
/-! ## Decimal numbers -/

theorem digitVal_of_digit (d : Nat) (h : 48 ≤ d ∧ d ≤ 57) : digitVal d = some (d - 48) := by
  simp [digitVal, h]

theorem readDigits_append (ds : Bytes) (hd : IsDigits ds) (c : Nat) (rest : Bytes)
    (hc : digitVal c = none) (acc cnt : Nat) :
    readDigits (ds ++ c :: rest) acc cnt = (digitsVal acc ds, cnt + ds.length, c :: rest) := by
  induction ds generalizing acc cnt with
  | nil => simp [readDigits, hc, digitsVal]
  | cons d ds ih =>
    have h1 := hd d (by simp)
    have h2 : IsDigits ds := fun x hx => hd x (List.mem_cons_of_mem _ hx)
    simp only [List.cons_append, readDigits, digitVal_of_digit d h1, List.append_eq]
    rw [ih h2]
    simp [digitsVal]
    omega

theorem readDigits_nil (ds : Bytes) (hd : IsDigits ds) (acc cnt : Nat) :
    readDigits ds acc cnt = (digitsVal acc ds, cnt + ds.length, []) := by
  induction ds generalizing acc cnt with
  | nil => simp [readDigits, digitsVal]
  | cons d ds ih =>
    have h1 := hd d (by simp)
    have h2 : IsDigits ds := fun x hx => hd x (List.mem_cons_of_mem _ hx)
    simp only [readDigits, digitVal_of_digit d h1]
    rw [ih h2]
    simp [digitsVal]
    omega

theorem digitsVal_append (acc : Nat) (ds : Bytes) (d : Nat) :
    digitsVal acc (ds ++ [d]) = digitsVal acc ds * 10 + (d - 48) := by
  simp [digitsVal, List.foldl_append]

theorem formatUintLoop_spec (fuel n : Nat) (acc : Bytes) (h : n < 10 ^ fuel) (hf : 0 < fuel) :
    ∃ ds, formatUintLoop fuel n acc = ds ++ acc ∧ IsDigits ds ∧ ds.length ≤ fuel ∧
      digitsVal 0 ds = n ∧ (n = 0 → ds = [48]) ∧ (n ≠ 0 → ∃ d tl, ds = d :: tl ∧ d ≠ 48) := by
  induction fuel generalizing n acc with
  | zero => omega
  | succ fuel ih =>
    by_cases hn : n < 10
    · refine ⟨[48 + n], by simp [formatUintLoop, hn], ?_, by simp, by simp [digitsVal], ?_, ?_⟩
      · intro d hd
        simp at hd
        omega
      · intro h0; simp [h0]
      · intro h0; exact ⟨48 + n, [], rfl, by omega⟩
    · have hlt : n / 10 < 10 ^ fuel := by
        rw [Nat.div_lt_iff_lt_mul (by norm_num)]
        rw [pow_succ] at h
        exact h
      have hpos : 0 < fuel := by
        rcases Nat.eq_zero_or_pos fuel with h0 | h0
        · subst h0; simp at hlt; omega
        · exact h0
      obtain ⟨ds, h1, h2, h3, h4, _, h6⟩ := ih (n / 10) ((48 + n % 10) :: acc) hlt hpos
      refine ⟨ds ++ [48 + n % 10], by simp [formatUintLoop, hn, h1], ?_, by simp; omega, ?_, ?_, ?_⟩
      · intro d hd
        rcases List.mem_append.1 hd with hd | hd
        · exact h2 d hd
        · simp at hd; omega
      · rw [digitsVal_append, h4]; omega
      · intro h0; omega
      · intro _
        obtain ⟨d, tl, hds, hd⟩ := h6 (by omega)
        exact ⟨d, tl ++ [48 + n % 10], by simp [hds], hd⟩

theorem formatUint_spec (n : Nat) (h : n < 2 ^ 64) :
    ∃ ds, formatUint n = ds ∧ IsDigits ds ∧ ds.length ≤ 20 ∧
      digitsVal 0 ds = n ∧ (n = 0 → ds = [48]) ∧ (n ≠ 0 → ∃ d tl, ds = d :: tl ∧ d ≠ 48) := by
  obtain ⟨ds, h1, h2⟩ := formatUintLoop_spec 20 n [] (by norm_num at h ⊢; omega) (by norm_num)
  exact ⟨ds, by simpa [formatUint] using h1, h2⟩

theorem formatUint_length (n : Nat) (h : n < 2 ^ 64) : (formatUint n).length ≤ 20 := by
  obtain ⟨ds, h1, _, h3, _⟩ := formatUint_spec n h
  rw [h1]; exact h3

theorem parseUint_formatUint (n : Nat) (h : n < 2 ^ 64) (c : Nat) (rest : Bytes)
    (hc : digitVal c = none) :
    parseUint (formatUint n ++ c :: rest) = some (n, c :: rest) := by
  obtain ⟨ds, h1, h2, _, h4, h5, h6⟩ := formatUint_spec n h
  rw [h1]
  by_cases h0 : n = 0
  · rw [h5 h0, h0]
    simp [parseUint, hc]
  · obtain ⟨d, tl, hds, hd⟩ := h6 h0
    have hr := readDigits_append ds h2 c rest hc 0 0
    rw [hds] at hr
    rw [hds]
    simp only [List.cons_append, parseUint, hd, if_false] at hr ⊢
    rw [hr, ← hds, h4]
    have hlen : ¬ (0 + ds.length = 0) := by rw [hds]; simp
    have hn : ¬ (2 ^ 64 ≤ n) := by omega
    simp [hlen, hn]
    exact ⟨by rw [hds]; simp, by norm_num at h; exact h⟩

/-! ## RFC 3339 times -/

theorem readFixed_appendInt2 (x : Nat) (h : x < 100) (rest : Bytes) :
    readFixed 2 (appendInt2 x ++ rest) 0 = some (x, rest) := by
  have h1 : digitVal (48 + x / 10 % 10) = some (x / 10 % 10) := by
    rw [digitVal_of_digit _ (by omega)]; simp
  have h2 : digitVal (48 + x % 10) = some (x % 10) := by
    rw [digitVal_of_digit _ (by omega)]; simp
  simp only [appendInt2, List.cons_append, List.nil_append, readFixed, h1, h2]
  simp
  omega

theorem readFixed_appendInt4 (x : Nat) (h : x < 10000) (rest : Bytes) :
    readFixed 4 (appendInt4 x ++ rest) 0 = some (x, rest) := by
  have h1 : digitVal (48 + x / 1000 % 10) = some (x / 1000 % 10) := by
    rw [digitVal_of_digit _ (by omega)]; simp
  have h2 : digitVal (48 + x / 100 % 10) = some (x / 100 % 10) := by
    rw [digitVal_of_digit _ (by omega)]; simp
  have h3 : digitVal (48 + x / 10 % 10) = some (x / 10 % 10) := by
    rw [digitVal_of_digit _ (by omega)]; simp
  have h4 : digitVal (48 + x % 10) = some (x % 10) := by
    rw [digitVal_of_digit _ (by omega)]; simp
  simp only [appendInt4, List.cons_append, List.nil_append, readFixed, h1, h2, h3, h4]
  simp
  omega

theorem appendInt9_digits (x : Nat) : IsDigits (appendInt9 x) := by
  intro d hd
  simp [appendInt9] at hd
  omega

theorem appendInt9_val (x : Nat) (h : x < 1000000000) : digitsVal 0 (appendInt9 x) = x := by
  simp [appendInt9, digitsVal]
  omega

theorem trimZeros_spec (l : Bytes) : ∃ k, l = trimZeros l ++ List.replicate k 48 := by
  refine ⟨(l.reverse.takeWhile (fun c => decide (c = 48))).length, ?_⟩
  have h1 := List.takeWhile_append_dropWhile (fun c => decide (c = 48)) l.reverse
  have h2 : l.reverse.takeWhile (fun c => decide (c = 48))
      = List.replicate (l.reverse.takeWhile (fun c => decide (c = 48))).length 48 := by
    rw [List.eq_replicate_iff]
    refine ⟨rfl, ?_⟩
    intro b hb
    simpa using List.mem_takeWhile_imp hb
  have h3 : l = (l.reverse.dropWhile (fun c => decide (c = 48))).reverse
      ++ (l.reverse.takeWhile (fun c => decide (c = 48))).reverse := by
    rw [← List.reverse_append, h1, List.reverse_reverse]
  rw [h2, List.reverse_replicate] at h3
  simpa [trimZeros] using h3

theorem digitsVal_replicate (acc k : Nat) :
    digitsVal acc (List.replicate k 48) = acc * 10 ^ k := by
  induction k generalizing acc with
  | zero => simp [digitsVal]
  | succ k ih =>
    rw [List.replicate_succ]
    show digitsVal (acc * 10 + (48 - 48)) (List.replicate k 48) = _
    rw [ih]; ring

theorem digitsVal_app (acc : Nat) (a b : Bytes) :
    digitsVal acc (a ++ b) = digitsVal (digitsVal acc a) b := by
  simp [digitsVal, List.foldl_append]

theorem parseFrac_appendNano (n : Nat) (h : n < 1000000000) (c : Nat) (rest : Bytes)
    (hc : digitVal c = none) (hdot : c ≠ 0x2E) :
    parseFrac (appendNano n ++ c :: rest) = (n, c :: rest) := by
  by_cases h0 : n = 0
  · subst h0
    simp only [appendNano, if_true, List.nil_append]
    unfold parseFrac
    split
    · rename_i heq
      injection heq with h1 _
      exact absurd h1 hdot
    · rfl
  · obtain ⟨k, hk⟩ := trimZeros_spec (appendInt9 n)
    have hdig : IsDigits (trimZeros (appendInt9 n)) := by
      intro d hd
      apply appendInt9_digits n d
      rw [hk]; exact List.mem_append_left _ hd
    have hval := appendInt9_val n h
    rw [hk, digitsVal_app, digitsVal_replicate] at hval
    have hlen : (trimZeros (appendInt9 n)).length + k = 9 := by
      have h9 : (appendInt9 n).length = 9 := rfl
      rw [hk] at h9
      simpa [List.length_append, List.length_replicate] using h9
    simp only [appendNano, h0, if_false, List.cons_append]
    generalize trimZeros (appendInt9 n) = ds at hk hdig hval hlen ⊢
    cases ds with
    | nil => simp [digitsVal] at hval; omega
    | cons d tl =>
      have hd := hdig d (by simp)
      have htl : IsDigits tl := fun x hx => hdig x (List.mem_cons_of_mem _ hx)
      simp only [List.cons_append]
      unfold parseFrac
      simp only [digitVal_of_digit d hd, Option.isSome_some, if_true]
      have hr := readDigits_append (d :: tl) hdig c rest hc 0 0
      simp only [List.cons_append] at hr
      rw [hr]
      simp only
      have hmin : min (0 + (d :: tl).length) 9 = (d :: tl).length := by
        simp at hlen ⊢; omega
      rw [hmin]
      have htake : (d :: (tl ++ c :: rest)).take (d :: tl).length = d :: tl := by
        rw [← List.cons_append, List.take_left']
        rfl
      rw [htake, readDigits_nil (d :: tl) hdig]
      simp only
      have : 9 - (d :: tl).length = k := by omega
      rw [this, hval]

theorem expectByte_cons (c : Nat) (rest : Bytes) : expectByte c (c :: rest) = some rest := by
  simp [expectByte]

theorem readField_appendInt2 (x : Nat) (h : x < 100) (sep : Nat) (rest : Bytes) :
    readField 2 sep (appendInt2 x ++ sep :: rest) = some (x, rest) := by
  simp [readField, readFixed_appendInt2 x h, expectByte_cons]

theorem readField_appendInt4 (x : Nat) (h : x < 10000) (sep : Nat) (rest : Bytes) :
    readField 4 sep (appendInt4 x ++ sep :: rest) = some (x, rest) := by
  simp [readField, readFixed_appendInt4 x h, expectByte_cons]

theorem tdiv60_cases (a : Int) :
    (0 ≤ a ∧ a.tdiv 60 = a / 60) ∨ (a < 0 ∧ a.tdiv 60 = -((-a) / 60)) := by
  by_cases h : 0 ≤ a
  · exact Or.inl ⟨h, Int.tdiv_eq_ediv h (by norm_num)⟩
  · refine Or.inr ⟨by omega, ?_⟩
    have h1 : (-a).tdiv 60 = (-a) / 60 := Int.tdiv_eq_ediv (by omega) (by norm_num)
    rw [Int.neg_tdiv] at h1
    omega

theorem tdiv60_zero : (0 : Int).tdiv 60 = 0 := by decide

theorem tdiv60_mul (z : Int) : (z * 60).tdiv 60 = z :=
  Int.mul_tdiv_cancel z (by norm_num)

theorem tdiv60_of_whole (a : Int) (h : a % 60 = 0) : a.tdiv 60 * 60 = a := by
  rcases tdiv60_cases a with ⟨_, h1⟩ | ⟨_, h1⟩ <;> rw [h1] <;> omega

theorem parseZone_appendZone (off : Int) (h : (off.tdiv 60).natAbs / 60 < 24) (rest : Bytes) :
    parseZone (appendZone off ++ rest) = some (off.tdiv 60 * 60, rest) := by
  by_cases h0 : off = 0
  · subst h0; simp [appendZone, parseZone, tdiv60_zero]
  · simp only [appendZone, h0, if_false]
    generalize off.tdiv 60 = z at h ⊢
    have h1 : z.natAbs / 60 < 100 := by omega
    have h2 : z.natAbs % 60 < 100 := by omega
    have hsum : z.natAbs / 60 * 60 + z.natAbs % 60 = z.natAbs := by omega
    have h3 : ¬ (23 < z.natAbs / 60 ∨ 59 < z.natAbs % 60) := by omega
    by_cases hneg : z < 0
    · simp only [hneg, if_true, List.cons_append, parseZone, List.append_assoc]
      simp only [readFixed_appendInt2 _ h1, List.cons_append, List.nil_append, expectByte_cons,
        readFixed_appendInt2 _ h2]
      simp only [h3, if_false, hsum]
      simp
      rw [abs_of_neg hneg]; omega
    · simp only [hneg, if_false, List.cons_append, parseZone, List.append_assoc]
      simp only [readFixed_appendInt2 _ h1, List.cons_append, List.nil_append, expectByte_cons,
        readFixed_appendInt2 _ h2]
      simp only [h3, if_false, hsum]
      simp
      omega

theorem appendZone_head (off : Int) :
    ∃ c tl, appendZone off = c :: tl ∧ digitVal c = none ∧ c ≠ 0x2E := by
  unfold appendZone
  split_ifs
  · exact ⟨0x5A, [], rfl, by decide, by decide⟩
  · exact ⟨0x2D, _, rfl, by decide, by decide⟩
  · exact ⟨0x2B, _, rfl, by decide, by decide⟩

theorem daysIn_le (m : Nat) (y : Int) : daysIn m y ≤ 31 := by
  unfold daysIn; split_ifs <;> omega

theorem Time.MarshalJSON_ok (t : Time) (hr : t.InRange) :
    t.MarshalJSON = .ok (0x22 :: (appendInt4 t.year.toNat ++ [0x2D] ++ appendInt2 t.month
      ++ [0x2D] ++ appendInt2 t.day ++ [0x54] ++ appendInt2 t.hour ++ [0x3A]
      ++ appendInt2 t.minute ++ [0x3A] ++ appendInt2 t.second ++ appendNano t.nsec
      ++ appendZone t.offset ++ [0x22])) := by
  obtain ⟨h1, h2, h3⟩ := hr
  have ha : ¬ (t.year < 0 ∨ 9999 < t.year) := by omega
  have hb : ¬ (t.offset ≠ 0 ∧ 24 ≤ (t.offset.tdiv 60).natAbs / 60) := fun h => by omega
  simp only [Time.MarshalJSON, ha, hb, if_false]

theorem Time.MarshalJSON_inRange (t : Time) (b : Bytes) (h : t.MarshalJSON = .ok b) :
    t.InRange := by
  unfold Time.MarshalJSON at h
  split_ifs at h with h1 h2
  refine ⟨by omega, by omega, ?_⟩
  by_cases h0 : t.offset = 0
  · rw [h0, tdiv60_zero]; decide
  · by_contra hc
    exact h2 ⟨h0, by omega⟩

theorem Time.normalize_of_whole (t : Time) (h : t.offset % 60 = 0) : t.normalize = t := by
  cases t
  simp only [Time.normalize, Time.mk.injEq, true_and]
  exact tdiv60_of_whole _ h

theorem Time.normalize_representable (t : Time) (hv : t.Valid) (hr : t.InRange) :
    t.normalize.Representable := by
  refine ⟨hv, ⟨hr.1, hr.2.1, ?_⟩, ?_⟩
  · show ((t.offset.tdiv 60 * 60).tdiv 60).natAbs / 60 < 24
    rw [tdiv60_mul]; exact hr.2.2
  · show t.offset.tdiv 60 * 60 % 60 = 0
    omega

theorem appendZone_normalize_length (off : Int) :
    (appendZone (off.tdiv 60 * 60)).length ≤ (appendZone off).length := by
  by_cases h0 : off = 0
  · subst h0; simp [tdiv60_zero]
  · by_cases hz : off.tdiv 60 = 0
    · rw [hz]
      simp [appendZone, h0, appendInt2]
    · have h1 : off.tdiv 60 * 60 ≠ 0 := by omega
      simp only [appendZone, h0, h1, if_false, tdiv60_mul]
      exact le_refl _

theorem Time.MarshalJSON_normalize (t : Time) (c : Bytes) (h : t.MarshalJSON = .ok c) :
    ∃ d, t.normalize.MarshalJSON = .ok d ∧ d.length ≤ c.length := by
  have hr := Time.MarshalJSON_inRange t c h
  have hr2 : t.normalize.InRange := by
    refine ⟨hr.1, hr.2.1, ?_⟩
    show ((t.offset.tdiv 60 * 60).tdiv 60).natAbs / 60 < 24
    rw [tdiv60_mul]; exact hr.2.2
  rw [Time.MarshalJSON_ok t hr] at h
  injection h with h
  subst h
  refine ⟨_, Time.MarshalJSON_ok _ hr2, ?_⟩
  have := appendZone_normalize_length t.offset
  simp only [Time.normalize, List.length_cons, List.length_append]
  omega

theorem parseTime_MarshalJSON (t : Time) (hv : t.Valid) (b : Bytes)
    (h : t.MarshalJSON = .ok b) (rest : Bytes) :
    parseTime (b ++ rest) = some (t.normalize, rest) := by
  have hr := Time.MarshalJSON_inRange t b h
  rw [Time.MarshalJSON_ok t hr] at h
  injection h with h
  subst h
  obtain ⟨hy0, hy1, hz⟩ := hr
  obtain ⟨hm1, hm2, hd1, hd2, hh, hmi, hs, hn⟩ := hv
  have hd3 := daysIn_le t.month t.year
  obtain ⟨c, tl, hzc, hc1, hc2⟩ := appendZone_head t.offset
  have hyear : t.year.toNat < 10000 := by omega
  have hfrac := parseFrac_appendNano t.nsec hn c (tl ++ 0x22 :: rest) hc1 hc2
  have hzone := parseZone_appendZone t.offset hz (0x22 :: rest)
  rw [hzc] at hzone
  simp only [List.cons_append] at hzone
  have hcast : ((t.year.toNat : Nat) : Int) = t.year := Int.toNat_of_nonneg hy0
  simp only [parseTime, parseDate, parseClock, List.cons_append, List.append_assoc,
    List.nil_append, expectByte_cons,
    readField_appendInt4 _ hyear, readField_appendInt2 _ (show t.month < 100 by omega),
    readField_appendInt2 _ (show t.day < 100 by omega),
    readField_appendInt2 _ (show t.hour < 100 by omega),
    readField_appendInt2 _ (show t.minute < 100 by omega),
    readFixed_appendInt2 _ (show t.second < 100 by omega), hzc, hfrac, hzone]
  have hfr : fieldsInRange t.year.toNat t.month t.day t.hour t.minute t.second = true := by
    simp only [fieldsInRange, hcast, decide_eq_true_eq]
    exact ⟨hm1, hm2, hd1, hd2, hh, hmi, hs⟩
  simp only [hfr, if_true, hcast, Time.normalize]

/-! ## UTF-8 sequences -/

theorem decodeRune_two (b b1 : Nat) (tl : Bytes) (h1 : 0xC2 ≤ b) (h2 : b < 0xE0)
    (h3 : 0x80 ≤ b1) (h4 : b1 ≤ 0xBF) :
    decodeRune (b :: b1 :: tl) = (b % 32 * 64 + b1 % 64, 2) := by
  have a1 : ¬ b < 0x80 := by omega
  have a2 : ¬ b < 0xC2 := by omega
  have a3 : ¬ (b1 < 0x80 ∨ 0xBF < b1) := by omega
  simp only [decodeRune, a1, a2, h2, a3, if_true, if_false]

theorem decodeRune_three (b b1 b2 : Nat) (tl : Bytes) (h1 : 0xE0 ≤ b) (h2 : b < 0xF0)
    (h3 : (if b = 0xE0 then 0xA0 else 0x80) ≤ b1) (h4 : b1 ≤ (if b = 0xED then 0x9F else 0xBF))
    (h5 : 0x80 ≤ b2) (h6 : b2 ≤ 0xBF) :
    decodeRune (b :: b1 :: b2 :: tl) = (b % 16 * 4096 + b1 % 64 * 64 + b2 % 64, 3) := by
  have a1 : ¬ b < 0x80 := by omega
  have a2 : ¬ b < 0xC2 := by omega
  have a3 : ¬ b < 0xE0 := by omega
  have a4 : ¬ (b1 < (if b = 0xE0 then 0xA0 else 0x80) ∨ (if b = 0xED then 0x9F else 0xBF) < b1) := by
    omega
  have a5 : ¬ (b2 < 0x80 ∨ 0xBF < b2) := by omega
  simp only [decodeRune, a1, a2, a3, h2, a4, a5, if_true, if_false]

theorem decodeRune_four (b b1 b2 b3 : Nat) (tl : Bytes) (h1 : 0xF0 ≤ b) (h2 : b < 0xF5)
    (h3 : (if b = 0xF0 then 0x90 else 0x80) ≤ b1) (h4 : b1 ≤ (if b = 0xF4 then 0x8F else 0xBF))
    (h5 : 0x80 ≤ b2) (h6 : b2 ≤ 0xBF) (h7 : 0x80 ≤ b3) (h8 : b3 ≤ 0xBF) :
    decodeRune (b :: b1 :: b2 :: b3 :: tl)
      = (b % 8 * 262144 + b1 % 64 * 4096 + b2 % 64 * 64 + b3 % 64, 4) := by
  have a1 : ¬ b < 0x80 := by omega
  have a2 : ¬ b < 0xC2 := by omega
  have a3 : ¬ b < 0xE0 := by omega
  have a3' : ¬ b < 0xF0 := by omega
  have a4 : ¬ (b1 < (if b = 0xF0 then 0x90 else 0x80) ∨ (if b = 0xF4 then 0x8F else 0xBF) < b1) := by
    omega
  have a5 : ¬ (b2 < 0x80 ∨ 0xBF < b2) := by omega
  have a6 : ¬ (b3 < 0x80 ∨ 0xBF < b3) := by omega
  simp only [decodeRune, a1, a2, a3, a3', h2, a4, a5, a6, if_true, if_false]

theorem encodeRune_two (b b1 : Nat) (h1 : 0xC2 ≤ b) (h2 : b < 0xE0)
    (h3 : 0x80 ≤ b1) (h4 : b1 ≤ 0xBF) :
    encodeRune (b % 32 * 64 + b1 % 64) = [b, b1] := by
  have a1 : ¬ (b % 32 * 64 + b1 % 64 ≤ 0x7F) := by omega
  have a2 : b % 32 * 64 + b1 % 64 ≤ 0x7FF := by omega
  simp only [encodeRune, a1, a2, if_true, if_false]
  congr 1
  · omega
  · congr 1; omega

theorem encodeRune_three (b b1 b2 : Nat) (h1 : 0xE0 ≤ b) (h2 : b < 0xF0)
    (h3 : (if b = 0xE0 then 0xA0 else 0x80) ≤ b1) (h4 : b1 ≤ (if b = 0xED then 0x9F else 0xBF))
    (h5 : 0x80 ≤ b2) (h6 : b2 ≤ 0xBF) :
    encodeRune (b % 16 * 4096 + b1 % 64 * 64 + b2 % 64) = [b, b1, b2] := by
  have hb1 : 0x80 ≤ b1 ∧ b1 ≤ 0xBF := by split_ifs at h3 h4 <;> omega
  have a1 : ¬ (b % 16 * 4096 + b1 % 64 * 64 + b2 % 64 ≤ 0x7F) := by
    split_ifs at h3 h4 <;> omega
  have a2 : ¬ (b % 16 * 4096 + b1 % 64 * 64 + b2 % 64 ≤ 0x7FF) := by
    split_ifs at h3 h4 <;> omega
  have a3 : ¬ (MaxRune < b % 16 * 4096 + b1 % 64 * 64 + b2 % 64 ∨
      (0xD800 ≤ b % 16 * 4096 + b1 % 64 * 64 + b2 % 64 ∧
        b % 16 * 4096 + b1 % 64 * 64 + b2 % 64 ≤ 0xDFFF)) := by
    simp only [MaxRune]
    split_ifs at h3 h4 <;> omega
  have a4 : b % 16 * 4096 + b1 % 64 * 64 + b2 % 64 ≤ 0xFFFF := by omega
  simp only [encodeRune, a1, a2, a3, a4, if_true, if_false]
  congr 1
  · omega
  · congr 1
    · omega
    · congr 1; omega

theorem encodeRune_four (b b1 b2 b3 : Nat) (h1 : 0xF0 ≤ b) (h2 : b < 0xF5)
    (h3 : (if b = 0xF0 then 0x90 else 0x80) ≤ b1) (h4 : b1 ≤ (if b = 0xF4 then 0x8F else 0xBF))
    (h5 : 0x80 ≤ b2) (h6 : b2 ≤ 0xBF) (h7 : 0x80 ≤ b3) (h8 : b3 ≤ 0xBF) :
    encodeRune (b % 8 * 262144 + b1 % 64 * 4096 + b2 % 64 * 64 + b3 % 64) = [b, b1, b2, b3] := by
  have hb1 : 0x80 ≤ b1 ∧ b1 ≤ 0xBF := by split_ifs at h3 h4 <;> omega
  have a1 : ¬ (b % 8 * 262144 + b1 % 64 * 4096 + b2 % 64 * 64 + b3 % 64 ≤ 0x7F) := by
    split_ifs at h3 h4 <;> omega
  have a2 : ¬ (b % 8 * 262144 + b1 % 64 * 4096 + b2 % 64 * 64 + b3 % 64 ≤ 0x7FF) := by
    split_ifs at h3 h4 <;> omega
  have a3 : ¬ (MaxRune < b % 8 * 262144 + b1 % 64 * 4096 + b2 % 64 * 64 + b3 % 64 ∨
      (0xD800 ≤ b % 8 * 262144 + b1 % 64 * 4096 + b2 % 64 * 64 + b3 % 64 ∧
        b % 8 * 262144 + b1 % 64 * 4096 + b2 % 64 * 64 + b3 % 64 ≤ 0xDFFF)) := by
    simp only [MaxRune]
    split_ifs at h3 h4 <;> omega
  have a4 : ¬ (b % 8 * 262144 + b1 % 64 * 4096 + b2 % 64 * 64 + b3 % 64 ≤ 0xFFFF) := by
    split_ifs at h3 h4 <;> omega
  simp only [encodeRune, a1, a2, a3, a4, if_true, if_false]
  congr 1
  · omega
  · congr 1
    · omega
    · congr 1
      · omega
      · congr 1; omega

theorem decodeRune_take4 (s : Bytes) : decodeRune (s.take 4) = decodeRune s := by
  rcases s with _ | ⟨b, _ | ⟨b1, _ | ⟨b2, _ | ⟨b3, r⟩⟩⟩⟩ <;> simp only [List.take, decodeRune]

theorem IsSeq.decode {s : Bytes} {c w : Nat} (h : IsSeq s c w) : decodeRune s = (c, w) := by
  have := h.2.2.2.1 (s.drop w)
  rwa [List.take_append_drop] at this

theorem decodeRune_cases (b : Nat) (rest : Bytes) (hb : ¬ b < 0x80) :
    decodeRune (b :: rest) = (RuneError, 1) ∨
      ∃ c w, decodeRune (b :: rest) = (c, w) ∧ IsSeq (b :: rest) c w := by
  by_cases h1 : b < 0xC2
  · left; simp only [decodeRune, hb, h1, if_true, if_false]
  by_cases h2 : b < 0xE0
  · rcases rest with _ | ⟨b1, tl⟩
    · left; simp only [decodeRune, hb, h1, h2, if_true, if_false]
    · by_cases h3 : b1 < 0x80 ∨ 0xBF < b1
      · left; simp only [decodeRune, hb, h1, h2, h3, if_true, if_false]
      · right
        have hd := fun tl => decodeRune_two b b1 tl (by omega) h2 (by omega) (by omega)
        refine ⟨_, 2, hd tl, by omega, by omega, by simp, ?_, ?_, by omega⟩
        · intro tl'; simpa using hd tl'
        · simpa using encodeRune_two b b1 (by omega) h2 (by omega) (by omega)
  by_cases h3 : b < 0xF0
  · rcases rest with _ | ⟨b1, _ | ⟨b2, tl⟩⟩
    · left; simp only [decodeRune, hb, h1, h2, h3, if_true, if_false]
    · left; simp only [decodeRune, hb, h1, h2, h3, if_true, if_false]
    · by_cases h4 : b1 < (if b = 0xE0 then 0xA0 else 0x80) ∨ (if b = 0xED then 0x9F else 0xBF) < b1
      · left; simp only [decodeRune, hb, h1, h2, h3, h4, if_true, if_false]
      by_cases h5 : b2 < 0x80 ∨ 0xBF < b2
      · left; simp only [decodeRune, hb, h1, h2, h3, h4, h5, if_true, if_false]
      · right
        have hd := fun tl => decodeRune_three b b1 b2 tl (by omega) h3 (by omega) (by omega)
          (by omega) (by omega)
        refine ⟨_, 3, hd tl, by omega, by omega, by simp, ?_, ?_, ?_⟩
        · intro tl'; simpa using hd tl'
        · simpa using encodeRune_three b b1 b2 (by omega) h3 (by omega) (by omega)
            (by omega) (by omega)
        · split_ifs at h4 <;> omega
  by_cases h4 : b < 0xF5
  · rcases rest with _ | ⟨b1, _ | ⟨b2, _ | ⟨b3, tl⟩⟩⟩
    · left; simp only [decodeRune, hb, h1, h2, h3, h4, if_true, if_false]
    · left; simp only [decodeRune, hb, h1, h2, h3, h4, if_true, if_false]
    · left; simp only [decodeRune, hb, h1, h2, h3, h4, if_true, if_false]
    · by_cases h5 : b1 < (if b = 0xF0 then 0x90 else 0x80) ∨ (if b = 0xF4 then 0x8F else 0xBF) < b1
      · left; simp only [decodeRune, hb, h1, h2, h3, h4, h5, if_true, if_false]
      by_cases h6 : b2 < 0x80 ∨ 0xBF < b2
      · left; simp only [decodeRune, hb, h1, h2, h3, h4, h5, h6, if_true, if_false]
      by_cases h7 : b3 < 0x80 ∨ 0xBF < b3
      · left; simp only [decodeRune, hb, h1, h2, h3, h4, h5, h6, h7, if_true, if_false]
      · right
        have hd := fun tl => decodeRune_four b b1 b2 b3 tl (by omega) h4 (by omega) (by omega)
          (by omega) (by omega) (by omega) (by omega)
        refine ⟨_, 4, hd tl, by omega, by omega, by simp, ?_, ?_, ?_⟩
        · intro tl'; simpa using hd tl'
        · simpa using encodeRune_four b b1 b2 b3 (by omega) h4 (by omega) (by omega)
            (by omega) (by omega) (by omega) (by omega)
        · split_ifs at h5 <;> omega
  · left; simp only [decodeRune, hb, h1, h2, h3, h4, if_true, if_false]

/-! ## JSON strings -/

theorem IsSeq.not_ascii {b : Nat} {rest : Bytes} {c w : Nat} (h : IsSeq (b :: rest) c w) :
    ¬ b < 0x80 := by
  intro hb
  have hd := h.decode
  simp only [decodeRune, hb, if_true] at hd
  have := h.1
  injection hd with _ h2
  omega

theorem IsSeq.take_cons {b : Nat} {rest : Bytes} {c w : Nat} (h : IsSeq (b :: rest) c w) :
    (b :: rest).take w = b :: rest.take (w - 1) := by
  obtain ⟨h1, _⟩ := h
  obtain ⟨k, rfl⟩ : ∃ k, w = k + 1 := ⟨w - 1, by omega⟩
  simp

theorem IsSeq.length_take {b : Nat} {rest : Bytes} {c w : Nat} (h : IsSeq (b :: rest) c w) :
    (rest.take (w - 1)).length = w - 1 := by
  obtain ⟨h1, _, h3, _⟩ := h
  simp at h3 ⊢
  omega

theorem IsSeq.append {b : Nat} {rest : Bytes} {c w : Nat} (h : IsSeq (b :: rest) c w)
    (y : Bytes) : IsSeq (b :: (rest.take (w - 1) ++ y)) c w := by
  have ht := h.take_cons
  have hl := h.length_take
  obtain ⟨h1, h2, h3, h4, h5, h6⟩ := h
  have hk : (b :: (rest.take (w - 1) ++ y)).take w = (b :: rest).take w := by
    rw [ht, ← List.cons_append, List.take_left']
    simp [hl]; omega
  refine ⟨h1, h2, ?_, ?_, ?_, h6⟩
  · simp [hl]; omega
  · rw [hk]; exact h4
  · rw [hk]; exact h5

theorem IsSeq.drop_append {b : Nat} {rest : Bytes} {c w : Nat} (h : IsSeq (b :: rest) c w)
    (y : Bytes) : (rest.take (w - 1) ++ y).drop (w - 1) = y := by
  rw [List.drop_left' h.length_take]

theorem isSeq_replacement (y : Bytes) : IsSeq (0xEF :: 0xBF :: 0xBD :: y) 0xFFFD 3 := by
  have hd := fun tl => decodeRune_three 0xEF 0xBF 0xBD tl (by norm_num) (by norm_num)
    (by norm_num) (by norm_num) (by norm_num) (by norm_num)
  have he := encodeRune_three 0xEF 0xBF 0xBD (by norm_num) (by norm_num)
    (by norm_num) (by norm_num) (by norm_num) (by norm_num)
  norm_num at hd he
  refine ⟨by norm_num, by norm_num, by simp, ?_, ?_, by norm_num⟩
  · intro tl; simpa using hd tl
  · simpa using he

/-! ### One step of each loop -/

theorem appendStringLoop_seq {b : Nat} {rest : Bytes} {c w : Nat} (h : IsSeq (b :: rest) c w)
    (f : Nat) :
    appendStringLoop (f + 1) (b :: rest) =
      (if c = 0x2028 ∨ c = 0x2029 then [0x5C, 0x75, 0x32, 0x30, 0x32, hexDigit (c % 16)]
        else b :: rest.take (w - 1)) ++ appendStringLoop f (rest.drop (w - 1)) := by
  have hb := h.not_ascii
  have hw : ¬ (c = RuneError ∧ w = 1) := fun hh => by have := h.1; omega
  simp only [appendStringLoop, hb, if_false, decodeRune_take4, h.decode, hw, h.take_cons]
  split_ifs <;> rfl

theorem appendStringLoop_bad {b : Nat} {rest : Bytes} (hb : ¬ b < 0x80)
    (h : decodeRune (b :: rest) = (RuneError, 1)) (f : Nat) :
    appendStringLoop (f + 1) (b :: rest) =
      [0x5C, 0x75, 0x66, 0x66, 0x66, 0x64] ++ appendStringLoop f rest := by
  simp only [appendStringLoop, hb, if_false, decodeRune_take4, h, and_self, if_true]

theorem coerceLoop_seq {b : Nat} {rest : Bytes} {c w : Nat} (h : IsSeq (b :: rest) c w)
    (f : Nat) :
    coerceLoop (f + 1) (b :: rest) = b :: rest.take (w - 1) ++ coerceLoop f (rest.drop (w - 1)) := by
  have hb := h.not_ascii
  have hw : ¬ (w = 1) := fun hh => by have := h.1; omega
  simp only [coerceLoop, hb, if_false, h.decode, hw, h.take_cons]

theorem coerceLoop_bad {b : Nat} {rest : Bytes} (hb : ¬ b < 0x80)
    (h : decodeRune (b :: rest) = (RuneError, 1)) (f : Nat) :
    coerceLoop (f + 1) (b :: rest) = [0xEF, 0xBF, 0xBD] ++ coerceLoop f rest := by
  simp only [coerceLoop, hb, if_false, h, if_true]

theorem validLoop_seq {b : Nat} {rest : Bytes} {c w : Nat} (h : IsSeq (b :: rest) c w)
    (f : Nat) :
    validLoop (f + 1) (b :: rest) = validLoop f (rest.drop (w - 1)) := by
  have hb := h.not_ascii
  have hw : ¬ (w = 1) := fun hh => by have := h.1; omega
  simp only [validLoop, hb, if_false, h.decode, hw]

theorem validLoop_bad {b : Nat} {rest : Bytes} (hb : ¬ b < 0x80)
    (h : decodeRune (b :: rest) = (RuneError, 1)) (f : Nat) :
    validLoop (f + 1) (b :: rest) = false := by
  simp only [validLoop, hb, if_false, h, if_true]

theorem unquoteLoop_seq {b : Nat} {rest : Bytes} {c w : Nat} (h : IsSeq (b :: rest) c w)
    (f : Nat) :
    unquoteLoop (f + 1) (b :: rest) =
      consOut (b :: rest.take (w - 1)) (unquoteLoop f (rest.drop (w - 1))) := by
  have hb := h.not_ascii
  have h1 : ¬ b = 0x22 := by omega
  have h2 : ¬ b = 0x5C := by omega
  have h3 : ¬ b < 0x20 := by omega
  simp only [unquoteLoop, unquoteStep, h1, h2, h3, hb, if_false, h.decode, h.2.2.2.2.1, h.take_cons]

theorem hexVal_hexDigit (x : Nat) (h : x < 16) : hexVal (hexDigit x) = some x := by
  interval_cases x <;> rfl

theorem unquoteLoop_safe (b : Nat) (hs : htmlSafe b = true) (f : Nat) (tl : Bytes) :
    unquoteLoop (f + 1) (b :: tl) = consOut [b] (unquoteLoop f tl) := by
  simp only [htmlSafe, decide_eq_true_eq] at hs
  have h1 : ¬ b = 0x22 := by omega
  have h2 : ¬ b = 0x5C := by omega
  have h3 : ¬ b < 0x20 := by omega
  have h4 : b < 0x80 := by omega
  simp only [unquoteLoop, unquoteStep, h1, h2, h3, h4, if_true, if_false]

theorem unquoteStep_u (x y z w : Nat) (hx : x < 16) (hy : y < 16) (hz : z < 16) (hw : w < 16)
    (hns : ¬ (0xD800 ≤ x * 4096 + y * 256 + z * 16 + w ∧ x * 4096 + y * 256 + z * 16 + w < 0xE000))
    (tl : Bytes) :
    unquoteStep 0x5C (0x75 :: hexDigit x :: hexDigit y :: hexDigit z :: hexDigit w :: tl) =
      some (encodeRune (x * 4096 + y * 256 + z * 16 + w), tl) := by
  simp [unquoteStep, hex4, hexVal_hexDigit, hx, hy, hz, hw, hns]

theorem unquoteLoop_escape (b : Nat) (hb : b < 0x80) (hs : htmlSafe b = false) (f : Nat)
    (tl : Bytes) :
    unquoteLoop (f + 1) (escapeByte b ++ tl) = consOut [b] (unquoteLoop f tl) := by
  unfold escapeByte
  split_ifs with h1 h2 h3 h4 h5 h6
  · rcases h1 with h | h <;> subst h <;> simp [unquoteLoop, unquoteStep]
  · subst h2; simp [unquoteLoop, unquoteStep]
  · subst h3; simp [unquoteLoop, unquoteStep]
  · subst h4; simp [unquoteLoop, unquoteStep]
  · subst h5; simp [unquoteLoop, unquoteStep]
  · subst h6; simp [unquoteLoop, unquoteStep]
  · have hu := unquoteStep_u 0 0 (b / 16) (b % 16) (by norm_num) (by norm_num) (by omega)
      (by omega) (by omega) tl
    have h48 : hexDigit 0 = 0x30 := rfl
    rw [h48] at hu
    have he : encodeRune (0 * 4096 + 0 * 256 + b / 16 * 16 + b % 16) = [b] := by
      have : 0 * 4096 + 0 * 256 + b / 16 * 16 + b % 16 = b := by omega
      rw [this]
      have hle : b ≤ 0x7F := by omega
      simp only [encodeRune, hle, if_true]
    rw [he] at hu
    simp only [List.cons_append, List.nil_append]
    simp only [unquoteLoop]
    rw [hu]
    simp

theorem unquoteLoop_replacement (f : Nat) (tl : Bytes) :
    unquoteLoop (f + 1) ([0x5C, 0x75, 0x66, 0x66, 0x66, 0x64] ++ tl) =
      consOut [0xEF, 0xBF, 0xBD] (unquoteLoop f tl) := by
  have hu := unquoteStep_u 15 15 15 13 (by norm_num) (by norm_num) (by norm_num)
      (by norm_num) (by norm_num) tl
  have he : encodeRune (15 * 4096 + 15 * 256 + 15 * 16 + 13) = [0xEF, 0xBF, 0xBD] := by decide
  rw [he] at hu
  have h1 : hexDigit 15 = 0x66 := rfl
  have h2 : hexDigit 13 = 0x64 := rfl
  rw [h1, h2] at hu
  simp only [List.cons_append, List.nil_append]
  simp only [unquoteLoop]
  rw [hu]
  simp

theorem unquoteLoop_separator (c : Nat) (hc : c = 0x2028 ∨ c = 0x2029) (f : Nat) (tl : Bytes) :
    unquoteLoop (f + 1) ([0x5C, 0x75, 0x32, 0x30, 0x32, hexDigit (c % 16)] ++ tl) =
      consOut (encodeRune c) (unquoteLoop f tl) := by
  have hu := unquoteStep_u 2 0 2 (c % 16) (by norm_num) (by norm_num) (by norm_num)
      (by omega) (by omega) tl
  have hv : 2 * 4096 + 0 * 256 + 2 * 16 + c % 16 = c := by omega
  rw [hv] at hu
  have h1 : hexDigit 2 = 0x32 := rfl
  have h2 : hexDigit 0 = 0x30 := rfl
  rw [h1, h2] at hu
  simp only [List.cons_append, List.nil_append]
  simp only [unquoteLoop]
  rw [hu]
  simp

theorem escapeByte_length (b : Nat) : 1 ≤ (escapeByte b).length := by
  unfold escapeByte; split_ifs <;> simp

/-- One iteration of the loops over a non-empty string: the quoted piece
`esc`, the piece `piece` it decodes to, and the remaining input `next`. -/
theorem loops_step (b : Nat) (rest : Bytes) :
    ∃ esc piece next esc',
      1 ≤ esc.length ∧ 1 ≤ piece.length ∧ next.length ≤ rest.length ∧
      esc'.length ≤ esc.length ∧
      (∀ f, appendStringLoop (f + 1) (b :: rest) = esc ++ appendStringLoop f next) ∧
      (∀ f, coerceLoop (f + 1) (b :: rest) = piece ++ coerceLoop f next) ∧
      (∀ g tl, unquoteLoop (g + 1) (esc ++ tl) = consOut piece (unquoteLoop g tl)) ∧
      (∀ g y, validLoop (g + 1) (piece ++ y) = validLoop g y) ∧
      (∀ g y, appendStringLoop (g + 1) (piece ++ y) = esc' ++ appendStringLoop g y) ∧
      (∀ g y, coerceLoop (g + 1) (piece ++ y) = piece ++ coerceLoop g y) ∧
      (∀ f, validLoop (f + 1) (b :: rest) = true →
        piece ++ next = b :: rest ∧ validLoop f next = true) := by
  by_cases hb : b < 0x80
  · refine ⟨if htmlSafe b then [b] else escapeByte b, [b], rest,
      if htmlSafe b then [b] else escapeByte b, ?_, by simp, le_refl _, le_refl _,
      ?_, ?_, ?_, ?_, ?_, ?_, ?_⟩
    · split_ifs
      · simp
      · exact escapeByte_length b
    · intro f; simp only [appendStringLoop, hb, if_true]
    · intro f; simp only [coerceLoop, hb, if_true, List.singleton_append]
    · intro g tl
      cases hs : htmlSafe b
      · simpa using unquoteLoop_escape b hb hs g tl
      · simpa using unquoteLoop_safe b hs g tl
    · intro g y; rw [List.singleton_append]; simp only [validLoop, hb, if_true]
    · intro g y; rw [List.singleton_append]; simp only [appendStringLoop, hb, if_true]
    · intro g y; rw [List.singleton_append]; simp only [coerceLoop, hb, if_true, List.singleton_append]
    · intro f hv
      simp only [validLoop, hb, if_true] at hv
      exact ⟨rfl, hv⟩
  · rcases decodeRune_cases b rest hb with hbad | ⟨c, w, hd, hseq⟩
    · have hrep := isSeq_replacement
      refine ⟨[0x5C, 0x75, 0x66, 0x66, 0x66, 0x64], [0xEF, 0xBF, 0xBD], rest, [0xEF, 0xBF, 0xBD],
        by simp, by simp, le_refl _, by simp, ?_, ?_, ?_, ?_, ?_, ?_, ?_⟩
      · intro f; exact appendStringLoop_bad hb hbad f
      · intro f; exact coerceLoop_bad hb hbad f
      · intro g tl; exact unquoteLoop_replacement g tl
      · intro g y; simpa using validLoop_seq (hrep y) g
      · intro g y; simpa using appendStringLoop_seq (hrep y) g
      · intro g y; simpa using coerceLoop_seq (hrep y) g
      · intro f hv
        rw [validLoop_bad hb hbad f] at hv
        cases hv
    · have htk : ∀ y, (rest.take (w - 1) ++ y).take (w - 1) = rest.take (w - 1) := fun y =>
        List.take_left' hseq.length_take
      refine ⟨if c = 0x2028 ∨ c = 0x2029 then [0x5C, 0x75, 0x32, 0x30, 0x32, hexDigit (c % 16)]
          else b :: rest.take (w - 1), b :: rest.take (w - 1), rest.drop (w - 1),
        if c = 0x2028 ∨ c = 0x2029 then [0x5C, 0x75, 0x32, 0x30, 0x32, hexDigit (c % 16)]
          else b :: rest.take (w - 1), ?_, by simp, by simp, le_refl _, ?_, ?_, ?_, ?_, ?_, ?_, ?_⟩
      · split_ifs <;> simp
      · intro f; exact appendStringLoop_seq hseq f
      · intro f; exact coerceLoop_seq hseq f
      · intro g tl
        by_cases hc : c = 0x2028 ∨ c = 0x2029
        · rw [if_pos hc, unquoteLoop_separator c hc g tl, hseq.2.2.2.2.1, hseq.take_cons]
        · rw [if_neg hc]
          have := unquoteLoop_seq (hseq.append tl) g
          rw [htk, hseq.drop_append] at this
          simpa using this
      · intro g y
        have := validLoop_seq (hseq.append y) g
        rw [hseq.drop_append] at this
        simpa using this
      · intro g y
        have := appendStringLoop_seq (hseq.append y) g
        rw [htk, hseq.drop_append] at this
        simpa using this
      · intro g y
        have := coerceLoop_seq (hseq.append y) g
        rw [htk, hseq.drop_append] at this
        simpa using this
      · intro f hv
        rw [validLoop_seq hseq f] at hv
        refine ⟨?_, hv⟩
        rw [← hseq.take_cons]
        have : rest.drop (w - 1) = (b :: rest).drop w := by
          obtain ⟨k, rfl⟩ : ∃ k, w = k + 1 := ⟨w - 1, by have := hseq.1; omega⟩
          simp
        rw [this, List.take_append_drop]

theorem unquoteLoop_appendStringLoop (f : Nat) :
    ∀ src : Bytes, src.length ≤ f → ∀ (f2 : Nat) (rest : Bytes),
      (appendStringLoop f src).length < f2 →
      unquoteLoop f2 (appendStringLoop f src ++ 0x22 :: rest) = some (coerceLoop f src, rest) := by
  induction f with
  | zero =>
    intro src _ f2 rest hf2
    obtain ⟨g, rfl⟩ : ∃ g, f2 = g + 1 := ⟨f2 - 1, by omega⟩
    simp [appendStringLoop, coerceLoop, unquoteLoop]
  | succ f ih =>
    intro src hlen f2 rest hf2
    cases src with
    | nil =>
      obtain ⟨g, rfl⟩ : ∃ g, f2 = g + 1 := ⟨f2 - 1, by omega⟩
      simp [appendStringLoop, coerceLoop, unquoteLoop]
    | cons b tl =>
      obtain ⟨esc, piece, next, esc', h1, _, h2, _, hq, hc, hu, _⟩ := loops_step b tl
      rw [hq f] at hf2 ⊢
      rw [hc f]
      simp only [List.length_append] at hf2
      obtain ⟨g, rfl⟩ : ∃ g, f2 = g + 1 := ⟨f2 - 1, by omega⟩
      rw [List.append_assoc, hu g]
      have hn : next.length ≤ f := by simp at hlen; omega
      rw [ih next hn g rest (by omega)]
      rfl

theorem coerceLoop_of_valid (f : Nat) :
    ∀ src : Bytes, src.length ≤ f → validLoop f src = true → coerceLoop f src = src := by
  induction f with
  | zero =>
    intro src hlen _
    have : src = [] := List.eq_nil_of_length_eq_zero (by omega)
    subst this; rfl
  | succ f ih =>
    intro src hlen hv
    cases src with
    | nil => rfl
    | cons b tl =>
      obtain ⟨esc, piece, next, esc', _, _, h2, _, _, hc, _, _, _, _, hval⟩ := loops_step b tl
      obtain ⟨hpn, hvn⟩ := hval f hv
      have hn : next.length ≤ f := by simp at hlen; omega
      rw [hc f, ih next hn hvn, hpn]

theorem validLoop_coerceLoop (f : Nat) :
    ∀ src : Bytes, src.length ≤ f → ∀ f2 : Nat, (coerceLoop f src).length ≤ f2 →
      validLoop f2 (coerceLoop f src) = true := by
  induction f with
  | zero =>
    intro src _ f2 _
    cases f2 <;> simp [coerceLoop, validLoop]
  | succ f ih =>
    intro src hlen f2 hf2
    cases src with
    | nil => cases f2 <;> simp [coerceLoop, validLoop]
    | cons b tl =>
      obtain ⟨esc, piece, next, esc', _, hp, h2, _, _, hc, _, hv, _, hcc, _⟩ := loops_step b tl
      rw [hc f] at hf2 ⊢
      simp only [List.length_append] at hf2
      obtain ⟨g, rfl⟩ : ∃ g, f2 = g + 1 := ⟨f2 - 1, by omega⟩
      have hn : next.length ≤ f := by simp at hlen; omega
      rw [hv g]
      exact ih next hn g (by omega)

theorem appendStringLoop_coerceLoop_length (f : Nat) :
    ∀ src : Bytes, src.length ≤ f → ∀ f2 : Nat, (coerceLoop f src).length ≤ f2 →
      (appendStringLoop f2 (coerceLoop f src)).length ≤ (appendStringLoop f src).length := by
  induction f with
  | zero =>
    intro src _ f2 _
    cases f2 <;> simp [coerceLoop, appendStringLoop]
  | succ f ih =>
    intro src hlen f2 hf2
    cases src with
    | nil => cases f2 <;> simp [coerceLoop, appendStringLoop]
    | cons b tl =>
      obtain ⟨esc, piece, next, esc', _, hp, h2, h3, hq, hc, _, _, hqq, hcc, _⟩ := loops_step b tl
      rw [hc f] at hf2 ⊢
      simp only [List.length_append] at hf2
      obtain ⟨g, rfl⟩ : ∃ g, f2 = g + 1 := ⟨f2 - 1, by omega⟩
      have hn : next.length ≤ f := by simp at hlen; omega
      rw [hqq g, hq f]
      have := ih next hn g (by omega)
      simp only [List.length_append]
      omega

theorem parseString_appendString (src rest : Bytes) :
    parseString (appendString src ++ rest) = some (coerceUTF8 src, rest) := by
  simp only [appendString, List.cons_append, parseString, List.append_assoc, List.singleton_append]
  exact unquoteLoop_appendStringLoop src.length src (le_refl _) _ rest (by simp)

theorem coerceUTF8_of_valid (p : Bytes) (h : ValidUTF8 p) : coerceUTF8 p = p :=
  coerceLoop_of_valid p.length p (le_refl _) h

theorem valid_coerceUTF8 (p : Bytes) : ValidUTF8 (coerceUTF8 p) :=
  validLoop_coerceLoop p.length p (le_refl _) _ (le_refl _)

theorem coerceUTF8_idem (p : Bytes) : coerceUTF8 (coerceUTF8 p) = coerceUTF8 p :=
  coerceUTF8_of_valid _ (valid_coerceUTF8 p)

theorem appendString_coerceUTF8_length (p : Bytes) :
    (appendString (coerceUTF8 p)).length ≤ (appendString p).length := by
  have := appendStringLoop_coerceLoop_length p.length p (le_refl _) (coerceUTF8 p).length (le_refl _)
  simp only [appendString, List.length_cons, List.length_append, List.length_nil]
  unfold coerceUTF8 at this ⊢
  omega

/-! ## The JSON form of a task -/

theorem expect_append (lit rest : Bytes) : expect lit (lit ++ rest) = some rest := by
  induction lit with
  | nil => rfl
  | cons c lit ih => simp [expect, expectByte, ih]

theorem parseBool_appendBool (b : Bool) (rest : Bytes) :
    parseBool (appendBool b ++ rest) = some (b, rest) := by
  cases b <;> simp [parseBool, appendBool, expect, expectByte]

theorem Marshal_ok_iff (t : Task) (buf : Bytes) :
    Marshal t = .ok buf ↔ ∃ c d, t.Created.MarshalJSON = .ok c ∧ t.Due.MarshalJSON = .ok d ∧
      buf = keyID ++ formatUint t.ID ++ keyText ++ appendString t.Text ++ keyCreated ++ c
        ++ keyDue ++ d ++ keyDone ++ appendBool t.Done ++ [0x7D] := by
  unfold Marshal
  cases hc : t.Created.MarshalJSON with
  | error e => simp
  | ok c =>
    cases hd : t.Due.MarshalJSON with
    | error e => simp
    | ok d =>
      simp only [Except.ok.injEq]
      constructor
      · intro h; exact ⟨c, d, rfl, rfl, h.symm⟩
      · rintro ⟨c', d', h1, h2, h3⟩
        cases h1; cases h2; exact h3.symm

theorem Unmarshal_Marshal (t : Task) (buf : Bytes) (hid : t.ID < 2 ^ 64)
    (hc : t.Created.Valid) (hd : t.Due.Valid) (h : Marshal t = .ok buf) :
    Unmarshal buf = .ok t.coerce := by
  obtain ⟨c, d, h1, h2, rfl⟩ := (Marshal_ok_iff t buf).1 h
  have e1 : field keyID parseUint (keyID ++ formatUint t.ID ++ keyText ++ appendString t.Text
      ++ keyCreated ++ c ++ keyDue ++ d ++ keyDone ++ appendBool t.Done ++ [0x7D])
      = some (t.ID, keyText ++ (appendString t.Text ++ (keyCreated ++ (c ++ (keyDue ++ (d
        ++ (keyDone ++ (appendBool t.Done ++ [0x7D])))))))) := by
    simp only [field, List.append_assoc, expect_append]
    exact parseUint_formatUint t.ID hid 0x2C _ (by decide)
  have e2 : ∀ X, field keyText parseString (keyText ++ (appendString t.Text ++ X))
      = some (coerceUTF8 t.Text, X) := by
    intro X
    simp only [field, expect_append]
    exact parseString_appendString _ _
  have e3 : ∀ X, field keyCreated parseTime (keyCreated ++ (c ++ X))
      = some (t.Created.normalize, X) := by
    intro X
    simp only [field, expect_append]
    exact parseTime_MarshalJSON _ hc _ h1 _
  have e4 : ∀ X, field keyDue parseTime (keyDue ++ (d ++ X)) = some (t.Due.normalize, X) := by
    intro X
    simp only [field, expect_append]
    exact parseTime_MarshalJSON _ hd _ h2 _
  have e5 : ∀ X, field keyDone parseBool (keyDone ++ (appendBool t.Done ++ X))
      = some (t.Done, X) := by
    intro X
    simp only [field, expect_append]
    exact parseBool_appendBool _ _
  simp only [Unmarshal, parseTask, e1, e2, e3, e4, e5]
  rfl

theorem Marshal_ok_of_inRange (t : Task) (hc : t.Created.InRange) (hd : t.Due.InRange) :
    ∃ buf, Marshal t = .ok buf := by
  unfold Marshal
  rw [Time.MarshalJSON_ok _ hc, Time.MarshalJSON_ok _ hd]
  exact ⟨_, rfl⟩

theorem Marshal_coerce (t : Task) (buf : Bytes) (h : Marshal t = .ok buf) :
    ∃ buf', Marshal t.coerce = .ok buf' ∧ buf'.length ≤ buf.length := by
  obtain ⟨c, d, h1, h2, rfl⟩ := (Marshal_ok_iff t _).1 h
  obtain ⟨c', hc1, hc2⟩ := Time.MarshalJSON_normalize _ c h1
  obtain ⟨d', hd1, hd2⟩ := Time.MarshalJSON_normalize _ d h2
  refine ⟨_, (Marshal_ok_iff t.coerce _).2 ⟨c', d', hc1, hd1, rfl⟩, ?_⟩
  have := appendString_coerceUTF8_length t.Text
  simp only [Task.coerce, List.length_append]
  omega

theorem Marshal_done (t : Task) (buf : Bytes) (h : Marshal t = .ok buf) :
    ∃ buf', Marshal { t with Done := true } = .ok buf' ∧ buf'.length ≤ buf.length := by
  obtain ⟨c, d, h1, h2, rfl⟩ := (Marshal_ok_iff t _).1 h
  refine ⟨_, (Marshal_ok_iff { t with Done := true } _).2 ⟨c, d, h1, h2, rfl⟩, ?_⟩
  simp only [List.length_append]
  cases t.Done <;> simp [appendBool]

/-! ## The invariant of the store -/

theorem Task.Canonical.coerce_eq {t : Task} (h : t.Canonical) : t.coerce = t := by
  obtain ⟨_, h2, h3, h4⟩ := h
  cases t
  simp only [Task.coerce, Task.mk.injEq, true_and, and_true]
  exact ⟨coerceUTF8_of_valid _ h2, Time.normalize_of_whole _ h3.2.2,
    Time.normalize_of_whole _ h4.2.2⟩

theorem Task.Canonical.marshal {t : Task} (h : t.Canonical) : ∃ buf, Marshal t = .ok buf :=
  Marshal_ok_of_inRange t h.2.2.1.2.1 h.2.2.2.2.1

theorem Task.Canonical.roundtrip {t : Task} (h : t.Canonical) (buf : Bytes)
    (hm : Marshal t = .ok buf) : Unmarshal buf = .ok t := by
  have := Unmarshal_Marshal t buf h.1 h.2.2.1.1 h.2.2.2.1 hm
  rwa [h.coerce_eq] at this

theorem Task.Canonical.done {t : Task} (h : t.Canonical) :
    Task.Canonical { t with Done := true } := h

theorem Marshal_inRange (t : Task) (buf : Bytes) (h : Marshal t = .ok buf) :
    t.Created.InRange ∧ t.Due.InRange := by
  obtain ⟨c, d, h1, h2, _⟩ := (Marshal_ok_iff t buf).1 h
  exact ⟨Time.MarshalJSON_inRange _ _ h1, Time.MarshalJSON_inRange _ _ h2⟩

/-- The record `AddTask` writes is a good entry. -/
theorem goodEntry_added (id : Nat) (hid : id < 2 ^ 64) (now : Time) (text : Bytes) (due : Time)
    (hn : now.Valid) (hd : due.Valid) (buf : Bytes)
    (hm : Marshal ⟨id, text, now, due, false⟩ = .ok buf) (hl : buf.length ≤ MaxValueSize) :
    GoodEntry (itob id, buf) := by
  obtain ⟨r1, r2⟩ := Marshal_inRange _ _ hm
  obtain ⟨buf', hb1, hb2⟩ := Marshal_coerce _ _ hm
  refine ⟨Task.coerce ⟨id, text, now, due, false⟩, ⟨hid, valid_coerceUTF8 _,
      Time.normalize_representable now hn r1, Time.normalize_representable due hd r2⟩,
    Unmarshal_Marshal _ _ hid hn hd hm, rfl, buf', hb1, by omega⟩

/-- The record `MarkDone` writes over a good entry is a good entry. -/
theorem goodEntry_done (t : Task) (hc : t.Canonical) (buf : Bytes)
    (hm : Marshal { t with Done := true } = .ok buf) (hl : buf.length ≤ MaxValueSize) :
    GoodEntry (itob t.ID, buf) :=
  ⟨{ t with Done := true }, hc.done, hc.done.roundtrip buf hm, rfl, buf, hm, hl⟩

theorem inv_opened : Inv NewBoltStore := by
  refine ⟨?_, ?_, ?_⟩
  · simp [NewBoltStore, KeysSorted]
  · intro kv hkv; simp [NewBoltStore] at hkv
  · simp [NewBoltStore]

theorem inv_addTask (s : Store) (h : Inv s) (now : Time) (text : Bytes) (due : Time)
    (hn : now.Valid) (hd : due.Valid) : Inv (s.AddTask now text due).2.2 := by
  rw [AddTask_eq]
  have hid : (s.db.sequence + 1) % 2 ^ 64 < 2 ^ 64 := Nat.mod_lt _ (by norm_num)
  cases hm : Marshal ⟨(s.db.sequence + 1) % 2 ^ 64, text, now, due, false⟩ with
  | error e => exact h
  | ok buf =>
    dsimp only
    by_cases hl : MaxValueSize < buf.length
    · rw [if_pos hl]; exact h
    · rw [if_neg hl]
      refine ⟨insert_sorted _ _ _ h.1, ?_, hid⟩
      intro kv hkv
      rcases mem_insert _ _ _ _ hkv with h1 | h1
      · rw [h1]; exact goodEntry_added _ hid now text due hn hd buf hm (by omega)
      · exact h.2.1 kv h1

theorem inv_markDone (s : Store) (h : Inv s) (id : Nat) : Inv (s.MarkDone id).2 := by
  rw [MarkDone_eq]
  cases hl : lookup s.db.entries (itob id) with
  | none => exact h
  | some data =>
    dsimp only
    cases hu : Unmarshal data with
    | error e => exact h
    | ok t =>
      dsimp only
      cases hm : Marshal { t with Done := true } with
      | error e => exact h
      | ok buf =>
        dsimp only
        by_cases hlen : MaxValueSize < buf.length
        · rw [if_pos hlen]; exact h
        · rw [if_neg hlen]
          refine ⟨insert_sorted _ _ _ h.1, ?_, h.2.2⟩
          intro kv hkv
          rcases mem_insert _ _ _ _ hkv with h1 | h1
          · obtain ⟨t', hc, hu', hk, _⟩ := h.2.1 _ (lookup_some_mem _ _ _ hl)
            simp only at hu' hk
            rw [hu] at hu'
            cases hu'
            rw [h1, hk]
            exact goodEntry_done t hc buf hm (by omega)
          · exact h.2.1 kv h1

theorem inv_deleteTask (s : Store) (h : Inv s) (id : Nat) : Inv (s.DeleteTask id).2 := by
  rw [DeleteTask_eq]
  refine ⟨remove_sorted _ _ h.1, ?_, h.2.2⟩
  intro kv hkv
  simp only [remove_eq_filter _ _ h.1] at hkv
  exact h.2.1 kv (List.mem_of_mem_filter hkv)

theorem ReachableIn.toInv {n : Nat} {s : Store} (h : ReachableIn n s) : Inv s := by
  induction h with
  | opened => exact inv_opened
  | addTask now text due _ hn hd _ ih => exact inv_addTask _ ih now text due hn hd
  | markDone id _ _ ih => exact inv_markDone _ ih id
  | deleteTask id _ _ ih => exact inv_deleteTask _ ih id

theorem Reachable.hasInv {s : Store} (h : Reachable s) : Inv s := by
  obtain ⟨n, hn⟩ := h
  exact hn.toInv

theorem AddTask_ok (s : Store) (now : Time) (text : Bytes) (due : Time)
    (h : (s.AddTask now text due).2.1 = none) :
    ∃ buf, Marshal ⟨(s.db.sequence + 1) % 2 ^ 64, text, now, due, false⟩ = .ok buf ∧
      buf.length ≤ MaxValueSize ∧
      s.AddTask now text due = ((s.db.sequence + 1) % 2 ^ 64, none,
        ⟨⟨insert s.db.entries (itob ((s.db.sequence + 1) % 2 ^ 64)) buf,
          (s.db.sequence + 1) % 2 ^ 64⟩⟩) := by
  rw [AddTask_eq] at h ⊢
  cases hm : Marshal ⟨(s.db.sequence + 1) % 2 ^ 64, text, now, due, false⟩ with
  | error e => rw [hm] at h; simp at h
  | ok buf =>
    rw [hm] at h
    dsimp only at h ⊢
    by_cases hl : MaxValueSize < buf.length
    · rw [if_pos hl] at h; simp at h
    · rw [if_neg hl]
      exact ⟨buf, rfl, by omega, rfl⟩

theorem AddTask_error (s : Store) (now : Time) (text : Bytes) (due : Time) (e : Error)
    (h : (s.AddTask now text due).2.1 = some e) : (s.AddTask now text due).2.2 = s := by
  rw [AddTask_eq] at h ⊢
  cases hm : Marshal ⟨(s.db.sequence + 1) % 2 ^ 64, text, now, due, false⟩ with
  | error e => rfl
  | ok buf =>
    rw [hm] at h
    dsimp only at h ⊢
    by_cases hl : MaxValueSize < buf.length
    · rw [if_pos hl]
    · rw [if_neg hl] at h; simp at h

theorem MarkDone_sequence (s : Store) (id : Nat) :
    (s.MarkDone id).2.db.sequence = s.db.sequence := by
  rw [MarkDone_eq]
  cases lookup s.db.entries (itob id) with
  | none => rfl
  | some data =>
    dsimp only
    cases Unmarshal data with
    | error e => rfl
    | ok t =>
      dsimp only
      cases Marshal { t with Done := true } with
      | error e => rfl
      | ok buf => dsimp only; split_ifs <;> rfl

theorem MarkDone_keys (s : Store) (id : Nat) (kv : Bytes × Bytes)
    (h : kv ∈ (s.MarkDone id).2.db.entries) : ∃ kv' ∈ s.db.entries, kv'.1 = kv.1 := by
  rw [MarkDone_eq] at h
  cases hl : lookup s.db.entries (itob id) with
  | none => rw [hl] at h; exact ⟨kv, h, rfl⟩
  | some data =>
    rw [hl] at h
    dsimp only at h
    cases hu : Unmarshal data with
    | error e => rw [hu] at h; exact ⟨kv, h, rfl⟩
    | ok t =>
      rw [hu] at h
      dsimp only at h
      cases hm : Marshal { t with Done := true } with
      | error e => rw [hm] at h; exact ⟨kv, h, rfl⟩
      | ok buf =>
        rw [hm] at h
        dsimp only at h
        split_ifs at h
        · exact ⟨kv, h, rfl⟩
        · rcases mem_insert _ _ _ _ h with h1 | h1
          · exact ⟨_, lookup_some_mem _ _ _ hl, by rw [h1]⟩
          · exact ⟨kv, h1, rfl⟩

theorem ReachableIn.count {n : Nat} {s : Store} (h : ReachableIn n s) (hn : n < 2 ^ 64) :
    s.db.sequence = n ∧ ∀ kv ∈ s.db.entries, ∃ i, kv.1 = itob i ∧ 1 ≤ i ∧ i ≤ n := by
  induction h with
  | opened => exact ⟨rfl, fun kv hkv => by simp [NewBoltStore] at hkv⟩
  | @addTask m s now text due _ _ _ hok ih =>
    obtain ⟨hseq, hkeys⟩ := ih (by omega)
    obtain ⟨buf, _, _, heq⟩ := AddTask_ok s now text due hok
    have hmod : (s.db.sequence + 1) % 2 ^ 64 = m + 1 := by
      rw [hseq]; exact Nat.mod_eq_of_lt hn
    rw [heq, hmod]
    refine ⟨rfl, ?_⟩
    intro kv hkv
    rcases mem_insert _ _ _ _ hkv with h1 | h1
    · exact ⟨m + 1, by rw [h1], by omega, le_refl _⟩
    · obtain ⟨i, h2, h3, h4⟩ := hkeys kv h1
      exact ⟨i, h2, h3, by omega⟩
  | @markDone m s id _ _ ih =>
    obtain ⟨hseq, hkeys⟩ := ih hn
    refine ⟨by rw [MarkDone_sequence, hseq], ?_⟩
    intro kv hkv
    obtain ⟨kv', h1, h2⟩ := MarkDone_keys s id kv hkv
    rw [← h2]
    exact hkeys kv' h1
  | @deleteTask m s id hr _ ih =>
    obtain ⟨hseq, hkeys⟩ := ih hn
    refine ⟨hseq, ?_⟩
    intro kv hkv
    rw [DeleteTask_eq] at hkv
    simp only [remove_eq_filter _ _ hr.toInv.1] at hkv
    exact hkeys kv (List.mem_of_mem_filter hkv)

theorem mem_decodeAll (l : List (Bytes × Bytes)) (t : Task) :
    t ∈ decodeAll l ↔ ∃ kv ∈ l, Unmarshal kv.2 = .ok t := by
  simp only [decodeAll, List.mem_filterMap]
  constructor
  · rintro ⟨kv, hkv, h⟩
    refine ⟨kv, hkv, ?_⟩
    cases hu : Unmarshal kv.2 with
    | error e => rw [hu] at h; simp at h
    | ok t' => rw [hu] at h; simp at h; rw [h]
  · rintro ⟨kv, hkv, h⟩
    exact ⟨kv, hkv, by rw [h]⟩

theorem Inv.decodes {s : Store} (h : Inv s) :
    ∀ kv ∈ s.db.entries, ∃ t, Unmarshal kv.2 = .ok t := by
  intro kv hkv
  obtain ⟨t, _, hu, _⟩ := h.2.1 kv hkv
  exact ⟨t, hu⟩

theorem Inv.listTasks {s : Store} (h : Inv s) (inc : Bool) :
    s.ListTasks inc = ((decodeAll s.db.entries).filter (fun t => inc || !t.Done), none) := by
  rw [Store.ListTasks, Store.ListTasksWith, listLoop_eq inc _ [] h.decodes]
  simp

theorem Inv.mem_listTasks_true {s : Store} (h : Inv s) (t : Task) :
    t ∈ (s.ListTasks true).1 ↔ ∃ kv ∈ s.db.entries, Unmarshal kv.2 = .ok t := by
  rw [h.listTasks true]
  simp [mem_decodeAll]

/-- In a store that satisfies the invariant, the task listed for a record has
the id its key encodes. -/
theorem Inv.key_of_mem {s : Store} (h : Inv s) (kv : Bytes × Bytes) (hkv : kv ∈ s.db.entries)
    (t : Task) (hu : Unmarshal kv.2 = .ok t) : kv.1 = itob t.ID ∧ t.Canonical := by
  obtain ⟨t', hc, hu', hk, _⟩ := h.2.1 kv hkv
  rw [hu] at hu'
  cases hu'
  exact ⟨hk, hc⟩

/-! ## Listing after a write -/

theorem trimZeros_length (l : Bytes) : (trimZeros l).length ≤ l.length := by
  obtain ⟨k, hk⟩ := trimZeros_spec l
  have := congrArg List.length hk
  simp only [List.length_append, List.length_replicate] at this
  omega

theorem appendNano_length (n : Nat) : (appendNano n).length ≤ 10 := by
  unfold appendNano
  split_ifs
  · simp
  · have := trimZeros_length (appendInt9 n)
    have h9 : (appendInt9 n).length = 9 := rfl
    simp only [List.length_cons]
    omega

theorem appendZone_length (off : Int) : (appendZone off).length ≤ 6 := by
  unfold appendZone
  split_ifs <;> simp [appendInt2]

theorem Time.MarshalJSON_length (t : Time) (b : Bytes) (h : t.MarshalJSON = .ok b) :
    b.length ≤ 37 := by
  rw [Time.MarshalJSON_ok t (Time.MarshalJSON_inRange t b h)] at h
  injection h with h
  subst h
  have h1 := appendNano_length t.nsec
  have h2 := appendZone_length t.offset
  simp only [List.length_cons, List.length_append, appendInt4, appendInt2, List.length_nil]
  omega

theorem Marshal_length (t : Task) (buf : Bytes) (hid : t.ID < 2 ^ 64) (h : Marshal t = .ok buf) :
    buf.length ≤ 140 + (appendString t.Text).length := by
  obtain ⟨c, d, h1, h2, rfl⟩ := (Marshal_ok_iff t buf).1 h
  have hc := Time.MarshalJSON_length _ _ h1
  have hd := Time.MarshalJSON_length _ _ h2
  have hf := formatUint_length t.ID hid
  have hb : (appendBool t.Done).length ≤ 5 := by cases t.Done <;> simp [appendBool]
  simp only [List.length_append, keyID, keyText, keyCreated, keyDue, keyDone, List.length_cons,
    List.length_nil]
  omega

/-- The ids listed for a key-ordered list of good entries increase strictly. -/
theorem decodeAll_ids_sorted (l : List (Bytes × Bytes)) (hs : KeysSorted l)
    (hg : ∀ kv ∈ l, GoodEntry kv) : ((decodeAll l).map Task.ID).Pairwise (· < ·) := by
  induction l with
  | nil => simp [decodeAll]
  | cons kv l ih =>
    rw [KeysSorted, List.pairwise_cons] at hs
    obtain ⟨t, hc, hu, hk, _⟩ := hg kv (by simp)
    have hd : decodeAll (kv :: l) = t :: decodeAll l := by
      simp [decodeAll, List.filterMap_cons, hu]
    rw [hd, List.map_cons, List.pairwise_cons]
    refine ⟨?_, ih hs.2 (fun x hx => hg x (List.mem_cons_of_mem _ hx))⟩
    intro i hi
    obtain ⟨t', ht', rfl⟩ := List.mem_map.1 hi
    obtain ⟨kv', hkv', hu'⟩ := (mem_decodeAll l t').1 ht'
    obtain ⟨t'', hc', hu'', hk', _⟩ := hg kv' (List.mem_cons_of_mem _ hkv')
    rw [hu'] at hu''
    cases hu''
    have := hs.1 kv' hkv'
    rw [hk, hk'] at this
    exact (itob_lt_iff _ _ hc.1 hc'.1).1 this

/-- Overwriting the record of `id` with its task marked done changes the
listed tasks by setting `Done` on the task with that id. -/
theorem decodeAll_replace (l : List (Bytes × Bytes)) (id : Nat) (hid : id < 2 ^ 64)
    (data buf : Bytes) (t : Task) (hu : Unmarshal data = .ok t)
    (hb : Unmarshal buf = .ok { t with Done := true })
    (hg : ∀ kv ∈ l, GoodEntry kv) (huniq : ∀ kv ∈ l, kv.1 = itob id → kv.2 = data) :
    decodeAll (l.map (fun kv => if kv.1 = itob id then (itob id, buf) else kv)) =
      (decodeAll l).map (fun t => if t.ID = id then { t with Done := true } else t) := by
  induction l with
  | nil => simp [decodeAll]
  | cons kv l ih =>
    obtain ⟨t1, hc1, hu1, hk1, _⟩ := hg kv (by simp)
    have ih' := ih (fun x hx => hg x (List.mem_cons_of_mem _ hx))
      (fun x hx => huniq x (List.mem_cons_of_mem _ hx))
    have hd : decodeAll (kv :: l) = t1 :: decodeAll l := by
      simp [decodeAll, List.filterMap_cons, hu1]
    rw [hd, List.map_cons, List.map_cons]
    by_cases hk : kv.1 = itob id
    · have hdata := huniq kv (by simp) hk
      rw [hdata, hu] at hu1
      cases hu1
      have hid1 : t.ID = id := (itob_injective _ _ hc1.1 hid (hk1.symm.trans hk))
      rw [if_pos hk, if_pos hid1]
      have : decodeAll ((itob id, buf) :: l.map (fun kv => if kv.1 = itob id then (itob id, buf) else kv))
          = { t with Done := true } :: decodeAll (l.map (fun kv => if kv.1 = itob id then (itob id, buf) else kv)) := by
        simp [decodeAll, List.filterMap_cons, hb]
      rw [this, ih']
    · have hid1 : ¬ t1.ID = id := fun h => hk (by rw [hk1, h])
      rw [if_neg hk, if_neg hid1]
      have : decodeAll (kv :: l.map (fun kv => if kv.1 = itob id then (itob id, buf) else kv))
          = t1 :: decodeAll (l.map (fun kv => if kv.1 = itob id then (itob id, buf) else kv)) := by
        simp [decodeAll, List.filterMap_cons, hu1]
      rw [this, ih']

/-- What a successful `MarkDone` did. -/
theorem MarkDone_ok (s : Store) (id : Nat) (h : (s.MarkDone id).1 = none) :
    ∃ data t buf, lookup s.db.entries (itob id) = some data ∧ Unmarshal data = .ok t ∧
      Marshal { t with Done := true } = .ok buf ∧
      s.MarkDone id = (none, ⟨⟨insert s.db.entries (itob id) buf, s.db.sequence⟩⟩) := by
  rw [MarkDone_eq] at h ⊢
  cases hl : lookup s.db.entries (itob id) with
  | none => rw [hl] at h; simp at h
  | some data =>
    rw [hl] at h
    dsimp only at h ⊢
    cases hu : Unmarshal data with
    | error e => rw [hu] at h; simp at h
    | ok t =>
      rw [hu] at h
      dsimp only at h ⊢
      cases hm : Marshal { t with Done := true } with
      | error e => rw [hm] at h; simp at h
      | ok buf =>
        rw [hm] at h
        dsimp only at h ⊢
        by_cases hlen : MaxValueSize < buf.length
        · rw [if_pos hlen] at h; simp at h
        · rw [if_neg hlen]
          exact ⟨data, t, buf, rfl, hu, hm, rfl⟩

/-- In a store that satisfies the invariant `MarkDone` of a stored id succeeds. -/
theorem Inv.markDone_of_mem {s : Store} (h : Inv s) (id : Nat)
    (t : Task) (ht : t ∈ (s.ListTasks true).1) (hti : t.ID = id) : (s.MarkDone id).1 = none := by
  obtain ⟨kv, hkv, hu⟩ := (h.mem_listTasks_true t).1 ht
  obtain ⟨t', hc, hu', hk, buf, hm, hlen⟩ := h.2.1 kv hkv
  rw [hu] at hu'
  cases hu'
  obtain ⟨buf', hm', hlen'⟩ := Marshal_done t buf hm
  have hl : lookup s.db.entries (itob id) = some kv.2 := by
    apply lookup_of_mem _ _ _ h.1
    rw [← hti, ← hk]
    exact hkv
  rw [MarkDone_eq, hl]
  dsimp only
  rw [hu]
  dsimp only
  rw [hm']
  dsimp only
  rw [if_neg (by omega)]

/-- The tasks listed after a successful `MarkDone`. -/
theorem Inv.listTasks_markDone {s : Store} (h : Inv s) (id : Nat) (hid : id < 2 ^ 64)
    (hok : (s.MarkDone id).1 = none) :
    decodeAll (s.MarkDone id).2.db.entries =
      (decodeAll s.db.entries).map (fun t => if t.ID = id then { t with Done := true } else t) := by
  obtain ⟨data, t, buf, hl, hu, hm, heq⟩ := MarkDone_ok s id hok
  obtain ⟨t', hc, hu', hk, _⟩ := h.2.1 _ (lookup_some_mem _ _ _ hl)
  simp only at hu' hk
  rw [hu] at hu'
  cases hu'
  rw [heq]
  simp only
  rw [insert_eq_map _ _ _ data h.1 hl]
  apply decodeAll_replace _ id hid data buf t hu (hc.done.roundtrip buf hm) h.2.1
  intro kv hkv hkey
  have := lookup_of_mem _ kv.1 kv.2 h.1 hkv
  rw [hkey, hl] at this
  injection this with this
  exact this.symm

set_option maxRecDepth 100000

/-! ## Example stores -/

theorem reachable_example1 : ReachableIn 1 exampleStore1 :=
  ReachableIn.addTask exampleNow buyMilk exampleDue ReachableIn.opened (by decide) (by decide)
    (by decide)

theorem reachable_example2 : ReachableIn 2 exampleStore2 :=
  ReachableIn.addTask exampleNow payRent exampleDue2 reachable_example1 (by decide) (by decide)
    (by decide)

theorem reachable_example3 : ReachableIn 2 exampleStore3 :=
  ReachableIn.markDone 1 reachable_example2 (by norm_num)

/-! ## Successive ids -/

/-- While the sequence does not wrap, the ids returned by the calls increase
strictly and exceed the sequence the run started from. -/
theorem run_ids (ops : List Op) :
    ∀ s : Store, s.db.sequence + ops.length < 2 ^ 64 →
      (∀ id ∈ (run s ops).2, s.db.sequence < id) ∧ (run s ops).2.Pairwise (· < ·) := by
  induction ops with
  | nil => intro s _; simp [run]
  | cons op ops ih =>
    intro s hlen
    simp only [List.length_cons] at hlen
    cases op with
    | addTask now text due =>
      cases herr : (s.AddTask now text due).2.1 with
      | none =>
        obtain ⟨buf, _, _, heq⟩ := AddTask_ok s now text due herr
        have hmod : (s.db.sequence + 1) % 2 ^ 64 = s.db.sequence + 1 :=
          Nat.mod_eq_of_lt (by omega)
        rw [hmod] at heq
        simp only [run, heq]
        obtain ⟨h1, h2⟩ := ih ⟨⟨insert s.db.entries (itob (s.db.sequence + 1)) buf,
          s.db.sequence + 1⟩⟩ (by simp only; omega)
        simp only at h1
        refine ⟨?_, ?_⟩
        · intro id hid
          rcases List.mem_cons.1 hid with h | h
          · omega
          · have := h1 id h; omega
        · rw [List.pairwise_cons]
          exact ⟨fun id hid => h1 id hid, h2⟩
      | some e =>
        have hs := AddTask_error s now text due e herr
        have : run s (Op.addTask now text due :: ops) = run s ops := by
          rw [run]
          rcases hx : s.AddTask now text due with ⟨i, err, s1⟩
          rw [hx] at herr hs
          simp only at herr hs
          subst herr
          subst hs
          rfl
        rw [this]
        exact ih s (by omega)
    | listTasks inc =>
      simp only [run]
      exact ih s (by omega)
    | markDone id =>
      simp only [run]
      have := ih (s.MarkDone id).2 (by rw [MarkDone_sequence]; omega)
      rw [MarkDone_sequence] at this
      exact this
    | deleteTask id =>
      simp only [run]
      exact ih (s.DeleteTask id).2 (by rw [DeleteTask_eq]; simp only; omega)

/-- An `AddTask` with times that RFC 3339 can carry and a short text succeeds
in every store. -/
theorem addTask_ok_of_short (s : Store) (now : Time) (text : Bytes) (due : Time)
    (hn : now.InRange) (hd : due.InRange) (ht : (appendString text).length ≤ 1000) :
    (s.AddTask now text due).2.1 = none := by
  rw [AddTask_eq]
  obtain ⟨buf, hm⟩ := Marshal_ok_of_inRange
    ⟨(s.db.sequence + 1) % 2 ^ 64, text, now, due, false⟩ hn hd
  rw [hm]
  dsimp only
  have hlen := Marshal_length _ buf (Nat.mod_lt _ (by norm_num)) hm
  simp only at hlen
  have : ¬ MaxValueSize < buf.length := by
    simp only [MaxValueSize]
    norm_num
    omega
  rw [if_neg this]

/-- An `AddTask` with the example arguments succeeds in every store. -/
theorem addTask_example_ok (s : Store) :
    (s.AddTask exampleNow buyMilk exampleDue).2.1 = none :=
  addTask_ok_of_short s exampleNow buyMilk exampleDue (by decide) (by decide) (by decide)

/-- The ids returned by the `AddTask` calls of `n` rounds of add and delete. -/
theorem run_churn (n : Nat) :
    ∀ (i : Nat) (s : Store), (run s (churn n i)).2 =
      (List.range n).map (fun k => (s.db.sequence + 1 + k) % 2 ^ 64) := by
  induction n with
  | zero => intro i s; simp [run, churn]
  | succ n ih =>
    intro i s
    obtain ⟨buf, _, _, heq⟩ := AddTask_ok s exampleNow buyMilk exampleDue (addTask_example_ok s)
    simp only [churn, run, heq]
    rw [ih, List.range_succ_eq_map, List.map_cons, List.map_map, DeleteTask_eq]
    simp only [Nat.add_zero]
    congr 1
    apply List.map_congr_left
    intro k _
    simp only [Function.comp, Nat.succ_eq_add_one]
    omega

/-- The store after `n` rounds of add and delete: the records it had before
and the sequence advanced by `n`. -/
theorem run_churn_state (n : Nat) :
    ∀ (i : Nat) (s : Store), s.db.sequence = i % 2 ^ 64 →
      (∀ k < n, ∀ kv ∈ s.db.entries, kv.1 ≠ itob ((i + k + 1) % 2 ^ 64)) →
      (run s (churn n i)).1 = ⟨⟨s.db.entries, (i + n) % 2 ^ 64⟩⟩ := by
  induction n with
  | zero =>
    intro i s hs _
    simp only [churn, run, Nat.add_zero, ← hs]
  | succ n ih =>
    intro i s hs habs
    obtain ⟨buf, _, _, heq⟩ := AddTask_ok s exampleNow buyMilk exampleDue (addTask_example_ok s)
    have hid : (s.db.sequence + 1) % 2 ^ 64 = (i + 1) % 2 ^ 64 := by rw [hs]; omega
    rw [hid] at heq
    simp only [churn, run, heq, DeleteTask_eq]
    rw [remove_insert_absent _ _ _ (by simpa using habs 0 (by omega))]
    rw [ih (i + 1) ⟨⟨s.db.entries, (i + 1) % 2 ^ 64⟩⟩ rfl]
    · simp only [Store.mk.injEq, Bucket.mk.injEq, true_and]
      omega
    · intro k hk kv hkv
      have := habs (k + 1) (by omega) kv hkv
      have he : i + 1 + k + 1 = i + (k + 1) + 1 := by omega
      rw [he]
      exact this

/-- Rounds of add and delete keep a store reachable, each round with one more
successful `AddTask`. -/
theorem reachable_run_churn (n : Nat) :
    ∀ (i m : Nat) (s : Store), ReachableIn m s → ReachableIn (m + n) (run s (churn n i)).1 := by
  induction n with
  | zero => intro i m s h; exact h
  | succ n ih =>
    intro i m s hm
    have hok := addTask_example_ok s
    have h1 : ReachableIn (m + 1) (s.AddTask exampleNow buyMilk exampleDue).2.2 :=
      ReachableIn.addTask exampleNow buyMilk exampleDue hm (by decide) (by decide) hok
    obtain ⟨buf, _, _, heq⟩ := AddTask_ok s exampleNow buyMilk exampleDue hok
    rw [heq] at h1
    simp only [churn, run, heq]
    have he : m + (n + 1) = m + 1 + n := by omega
    rw [he]
    exact ih (i + 1) (m + 1) _ (ReachableIn.deleteTask _ h1 (Nat.mod_lt _ (by norm_num)))

/-- The store `exampleStore1` is in the state `wrappedStore` after `2^64 - 1`
rounds of add and delete. -/
theorem wrappedStore_reached : (run exampleStore1 (churn (2 ^ 64 - 1) 1)).1 = wrappedStore := by
  obtain ⟨hseq, hkeys⟩ := reachable_example1.count (by norm_num)
  have habs : ∀ k < 2 ^ 64 - 1, ∀ kv ∈ exampleStore1.db.entries,
      kv.1 ≠ itob ((1 + k + 1) % 2 ^ 64) := by
    intro k hk kv hkv
    obtain ⟨i, hi, h1, h2⟩ := hkeys kv hkv
    have hi1 : i = 1 := by omega
    rw [hi, hi1]
    intro heq
    have := itob_injective _ _ (by norm_num) (Nat.mod_lt _ (by norm_num)) heq
    omega
  have hs : exampleStore1.db.sequence = 1 % 2 ^ 64 := by rw [hseq]; norm_num
  have h := run_churn_state (2 ^ 64 - 1) 1 exampleStore1 hs habs
  have hz : (1 + (2 ^ 64 - 1)) % 2 ^ 64 = 0 := by norm_num
  rw [hz] at h
  exact h

/-- The state `wrappedStore` is reached with `2^64` successful `AddTask`
calls. -/
theorem reachable_wrappedStore : ReachableIn (2 ^ 64) wrappedStore := by
  have h := reachable_run_churn (2 ^ 64 - 1) 1 1 exampleStore1 reachable_example1
  rw [wrappedStore_reached] at h
  have he : 1 + (2 ^ 64 - 1) = 2 ^ 64 := by norm_num
  rw [he] at h
  exact h

/-! ## The claims -/

/-- C1 (amended): in every reachable store state, for every non-empty text
that is valid UTF-8, every valid `due` whose zone offset is a whole number of
minutes and every clock reading, if `AddTask(text, due)` succeeds and returns
`id`, then `ListTasks(true)` afterwards returns no error and contains a task
with that id, that text, that due and `done = false`; and if the state was
reached with fewer than `2^64` successful `AddTask` calls, `id` differs from
the id of every task that was in the store before the call. -/
theorem addTask_listed (s : Store) (now : Time) (text : Bytes) (due : Time)
    (hr : Reachable s) (_htext : text ≠ []) (hutf : ValidUTF8 text)
    (hnow : now.Valid) (hdue : due.Valid) (hoff : due.offset % 60 = 0)
    (hok : (s.AddTask now text due).2.1 = none) :
    ((s.AddTask now text due).2.2.ListTasks true).2 = none ∧
    (∃ t ∈ ((s.AddTask now text due).2.2.ListTasks true).1,
      t.ID = (s.AddTask now text due).1 ∧ t.Text = text ∧ t.Due = due ∧ t.Done = false) ∧
    ∀ n, ReachableIn n s → n < 2 ^ 64 →
      ∀ t ∈ (s.ListTasks true).1, t.ID ≠ (s.AddTask now text due).1 := by
  have hinv := hr.hasInv
  have hinv' := inv_addTask s hinv now text due hnow hdue
  obtain ⟨buf, hm, _, heq⟩ := AddTask_ok s now text due hok
  have hlt : (s.db.sequence + 1) % 2 ^ 64 < 2 ^ 64 := Nat.mod_lt _ (by norm_num)
  refine ⟨by rw [hinv'.listTasks true], ?_, ?_⟩
  · refine ⟨⟨(s.db.sequence + 1) % 2 ^ 64, text, now.normalize, due, false⟩, ?_, by rw [heq],
      rfl, rfl, rfl⟩
    rw [hinv'.mem_listTasks_true]
    refine ⟨(itob ((s.db.sequence + 1) % 2 ^ 64), buf),
      by rw [heq]; exact mem_insert_self _ _ _, ?_⟩
    have := Unmarshal_Marshal _ buf hlt hnow hdue hm
    simpa [Task.coerce, coerceUTF8_of_valid text hutf, Time.normalize_of_whole due hoff]
      using this
  · intro n hn hlt64 t ht
    obtain ⟨hseq, hkeys⟩ := hn.count hlt64
    rw [hinv.mem_listTasks_true] at ht
    obtain ⟨kv, hkv, hu⟩ := ht
    obtain ⟨hk, hc⟩ := hinv.key_of_mem kv hkv t hu
    obtain ⟨i, hi, h1, hle⟩ := hkeys kv hkv
    have : t.ID = i := itob_injective _ _ hc.1 (by omega) (hk.symm.trans hi)
    rw [heq, hseq]
    simp only
    omega

/-- C1 (witness): `AddTask("Pay rent", 2024-01-05)` on the store holding one
task, which was reached with one successful `AddTask`. -/
theorem addTask_listed_witness :
    Reachable exampleStore1 ∧ ReachableIn 1 exampleStore1 ∧ payRent ≠ [] ∧ ValidUTF8 payRent ∧
    exampleNow.Valid ∧ exampleDue2.Valid ∧ exampleDue2.offset % 60 = 0 ∧
    (exampleStore1.AddTask exampleNow payRent exampleDue2).2.1 = none ∧
    ((exampleStore1.AddTask exampleNow payRent exampleDue2).2.2.ListTasks true).2 = none ∧
    (∃ t ∈ ((exampleStore1.AddTask exampleNow payRent exampleDue2).2.2.ListTasks true).1,
      t.ID = (exampleStore1.AddTask exampleNow payRent exampleDue2).1 ∧ t.Text = payRent ∧
        t.Due = exampleDue2 ∧ t.Done = false) ∧
    ∀ n, ReachableIn n exampleStore1 → n < 2 ^ 64 →
      ∀ t ∈ (exampleStore1.ListTasks true).1,
        t.ID ≠ (exampleStore1.AddTask exampleNow payRent exampleDue2).1 :=
  ⟨⟨1, reachable_example1⟩, reachable_example1, by decide, by decide, by decide, by decide,
    by decide, by decide,
    addTask_listed exampleStore1 exampleNow payRent exampleDue2 ⟨1, reachable_example1⟩
    (by decide) (by decide) (by decide) (by decide) (by decide) (by decide)⟩

/-- C1 (counterexample): `AddTask` of the one-byte text `0xFF`, which is not
valid UTF-8, succeeds on the empty store, and `ListTasks(true)` then holds the
text U+FFFD and no task with the text that was passed in.  `AddTask` with a
valid due date in a zone thirty seconds east of UTC succeeds on the empty
store, and `ListTasks(true)` then holds the due date with zone offset zero,
another instant, and no task with the due date that was passed in.  And in
the state `wrappedStore`, reached with `2^64` successful `AddTask` calls,
where the `uint64` sequence has wrapped while task 1 is stored, `AddTask`
succeeds and returns the id of that task. -/
theorem addTask_listed_fails :
    (NewBoltStore.AddTask exampleNow [0xFF] exampleDue).2.1 = none ∧
    ((NewBoltStore.AddTask exampleNow [0xFF] exampleDue).2.2.ListTasks true).1.map Task.Text
      = [[0xEF, 0xBF, 0xBD]] ∧
    (¬ ∃ t ∈ ((NewBoltStore.AddTask exampleNow [0xFF] exampleDue).2.2.ListTasks true).1,
      t.ID = (NewBoltStore.AddTask exampleNow [0xFF] exampleDue).1 ∧ t.Text = [0xFF] ∧
        t.Due = exampleDue ∧ t.Done = false) ∧
    halfMinuteDue.Valid ∧
    (NewBoltStore.AddTask exampleNow buyMilk halfMinuteDue).2.1 = none ∧
    ((NewBoltStore.AddTask exampleNow buyMilk halfMinuteDue).2.2.ListTasks true).1.map Task.Due
      = [exampleDue] ∧
    (¬ ∃ t ∈ ((NewBoltStore.AddTask exampleNow buyMilk halfMinuteDue).2.2.ListTasks true).1,
      t.ID = (NewBoltStore.AddTask exampleNow buyMilk halfMinuteDue).1 ∧ t.Text = buyMilk ∧
        t.Due = halfMinuteDue ∧ t.Done = false) ∧
    (run exampleStore1 (churn (2 ^ 64 - 1) 1)).1 = wrappedStore ∧
    ReachableIn (2 ^ 64) wrappedStore ∧
    (wrappedStore.AddTask exampleNow payRent exampleDue2).2.1 = none ∧
    ∃ t ∈ (wrappedStore.ListTasks true).1,
      t.ID = (wrappedStore.AddTask exampleNow payRent exampleDue2).1 :=
  ⟨by decide, by decide, by decide, by decide, by decide, by decide, by decide,
    wrappedStore_reached, reachable_wrappedStore, by decide, by decide⟩

/-- C2 (amended): for every sequence of fewer than `2^64` store operations
starting from a freshly opened empty store, the ids returned by the successful
`AddTask` calls are strictly increasing in call order, whatever was marked
done or deleted in between. -/
theorem addTask_ids_increasing (ops : List Op) (h : ops.length < 2 ^ 64) :
    (run NewBoltStore ops).2.Pairwise (· < ·) :=
  (run_ids ops NewBoltStore (by simpa [NewBoltStore] using h)).2

/-- C2 (witness): two adds, a `MarkDone`, a delete of the newest task and a
third add. -/
theorem addTask_ids_increasing_witness :
    [Op.addTask exampleNow buyMilk exampleDue, Op.addTask exampleNow payRent exampleDue2,
      Op.markDone 1, Op.deleteTask 2, Op.addTask exampleNow buyMilk exampleDue].length < 2 ^ 64 ∧
    (run NewBoltStore [Op.addTask exampleNow buyMilk exampleDue,
      Op.addTask exampleNow payRent exampleDue2, Op.markDone 1, Op.deleteTask 2,
      Op.addTask exampleNow buyMilk exampleDue]).2.Pairwise (· < ·) :=
  ⟨by norm_num, addTask_ids_increasing _ (by norm_num)⟩

/-- C2 (counterexample): `2^64` rounds of `AddTask` followed by `DeleteTask`
of the id just issued, on a fresh store.  Every `AddTask` succeeds, the
`uint64` sequence wraps, and the last `AddTask` returns id 0, which is not
greater than the ids returned before it. -/
theorem addTask_ids_wrap :
    (run NewBoltStore (churn (2 ^ 64) 0)).2
      = (List.range (2 ^ 64)).map (fun k => (k + 1) % 2 ^ 64) ∧
    ¬ (run NewBoltStore (churn (2 ^ 64) 0)).2.Pairwise (· < ·) := by
  have hrun : (run NewBoltStore (churn (2 ^ 64) 0)).2
      = (List.range (2 ^ 64)).map (fun k => (k + 1) % 2 ^ 64) := by
    rw [run_churn]
    apply List.map_congr_left
    intro k _
    simp only [NewBoltStore]
    omega
  refine ⟨hrun, ?_⟩
  rw [hrun, List.pairwise_iff_getElem]
  intro h
  have := h (2 ^ 64 - 2) (2 ^ 64 - 1) (by simp) (by simp) (by norm_num)
  simp at this

/-- C3 (amended): `Store.AddTask` does not validate its text: for every store
state and every due date and clock reading that RFC 3339 can carry (a year
from 0 to 9999, a zone offset that is a whole number of minutes and under 24
hours), `AddTask("", due)` returns no error, returns the next value of the
sequence as id and writes under `itob(id)` a record that decodes to the task
with that id, the empty text, that due and `done = false`. -/
theorem addTask_empty_text (s : Store) (now due : Time) (hnow : now.Representable)
    (hdue : due.Representable) :
    (s.AddTask now [] due).2.1 = none ∧
    (s.AddTask now [] due).1 = (s.db.sequence + 1) % 2 ^ 64 ∧
    ∃ buf, lookup (s.AddTask now [] due).2.2.db.entries (itob (s.AddTask now [] due).1) = some buf ∧
      Unmarshal buf = .ok ⟨(s.AddTask now [] due).1, [], now, due, false⟩ := by
  have hok := addTask_ok_of_short s now [] due hnow.2.1 hdue.2.1 (by decide)
  obtain ⟨buf, hm, _, heq⟩ := AddTask_ok s now [] due hok
  refine ⟨hok, by rw [heq], buf, by rw [heq]; exact lookup_insert_self _ _ _, ?_⟩
  rw [heq]
  have := Unmarshal_Marshal _ buf (Nat.mod_lt _ (by norm_num)) hnow.1 hdue.1 hm
  simpa [Task.coerce, coerceUTF8, coerceLoop, Time.normalize_of_whole now hnow.2.2,
    Time.normalize_of_whole due hdue.2.2] using this

/-- C3 (witness): `AddTask("", 2024-01-10)` on the store holding two tasks. -/
theorem addTask_empty_text_witness :
    exampleNow.Representable ∧ exampleDue.Representable ∧
    (exampleStore3.AddTask exampleNow [] exampleDue).2.1 = none ∧
    (exampleStore3.AddTask exampleNow [] exampleDue).1 = (exampleStore3.db.sequence + 1) % 2 ^ 64 ∧
    ∃ buf, lookup (exampleStore3.AddTask exampleNow [] exampleDue).2.2.db.entries
        (itob (exampleStore3.AddTask exampleNow [] exampleDue).1) = some buf ∧
      Unmarshal buf = .ok ⟨(exampleStore3.AddTask exampleNow [] exampleDue).1, [], exampleNow,
        exampleDue, false⟩ :=
  ⟨by decide, by decide,
    addTask_empty_text exampleStore3 exampleNow exampleDue (by decide) (by decide)⟩

/-- C3 (counterexample): `AddTask("", 2024-01-10)` on the empty store returns
id 1 and no error, and `ListTasks(true)` then holds one task, with the empty
text. -/
theorem addTask_empty_text_not_rejected :
    (NewBoltStore.AddTask exampleNow [] exampleDue).1 = 1 ∧
    (NewBoltStore.AddTask exampleNow [] exampleDue).2.1 = none ∧
    (NewBoltStore.AddTask exampleNow [] exampleDue).2.2 ≠ NewBoltStore ∧
    ((NewBoltStore.AddTask exampleNow [] exampleDue).2.2.ListTasks true).1.map Task.Text = [[]] := by
  decide

/-- C4: in every reachable store state, for every id of a task present in the
store, `MarkDone(id)` returns no error, after which `ListTasks(false)` contains
no task with that id and `ListTasks(true)` contains a task with that id whose
`done` is true (neither listing returns an error). -/
theorem markDone_present (s : Store) (id : Nat) (hr : Reachable s) (hid : id < 2 ^ 64)
    (h : ∃ t ∈ (s.ListTasks true).1, t.ID = id) :
    (s.MarkDone id).1 = none ∧
    ((s.MarkDone id).2.ListTasks false).2 = none ∧
    (∀ t ∈ ((s.MarkDone id).2.ListTasks false).1, t.ID ≠ id) ∧
    ((s.MarkDone id).2.ListTasks true).2 = none ∧
    ∃ t ∈ ((s.MarkDone id).2.ListTasks true).1, t.ID = id ∧ t.Done = true := by
  have hinv := hr.hasInv
  have hinv' := inv_markDone s hinv id
  obtain ⟨t, ht, hti⟩ := h
  have hok := hinv.markDone_of_mem id t ht hti
  have hlist := hinv.listTasks_markDone id hid hok
  rw [hinv.listTasks true] at ht
  simp only [Bool.true_or, List.filter_true] at ht
  refine ⟨hok, by rw [hinv'.listTasks false], ?_, by rw [hinv'.listTasks true], ?_⟩
  · intro t' ht'
    rw [hinv'.listTasks false, hlist] at ht'
    simp only [Bool.false_or, List.mem_filter, List.mem_map] at ht'
    obtain ⟨⟨t0, _, h0⟩, hdone⟩ := ht'
    intro heq
    by_cases h1 : t0.ID = id
    · rw [if_pos h1] at h0
      rw [← h0] at hdone
      simp at hdone
    · rw [if_neg h1] at h0
      rw [h0] at h1
      exact h1 heq
  · refine ⟨{ t with Done := true }, ?_, hti, rfl⟩
    rw [hinv'.listTasks true, hlist]
    simp only [Bool.true_or, List.filter_true, List.mem_map]
    exact ⟨t, ht, by rw [if_pos hti]⟩

/-- C4 (witness): `MarkDone(1)` on the store holding the pending tasks 1 and 2. -/
theorem markDone_present_witness :
    Reachable exampleStore2 ∧ (∃ t ∈ (exampleStore2.ListTasks true).1, t.ID = 1) ∧
    (exampleStore2.MarkDone 1).1 = none ∧
    ((exampleStore2.MarkDone 1).2.ListTasks false).2 = none ∧
    (∀ t ∈ ((exampleStore2.MarkDone 1).2.ListTasks false).1, t.ID ≠ 1) ∧
    ((exampleStore2.MarkDone 1).2.ListTasks true).2 = none ∧
    ∃ t ∈ ((exampleStore2.MarkDone 1).2.ListTasks true).1, t.ID = 1 ∧ t.Done = true :=
  ⟨⟨2, reachable_example2⟩, by decide,
    markDone_present exampleStore2 1 ⟨2, reachable_example2⟩ (by norm_num) (by decide)⟩

/-- C5: in every reachable store state, for every id for which no task is
stored, `MarkDone(id)` returns the error `task not found` and leaves the store
as it was: the same records and the same sequence. -/
theorem markDone_missing (s : Store) (id : Nat) (hr : Reachable s) (hid : id < 2 ^ 64)
    (h : ∀ t ∈ (s.ListTasks true).1, t.ID ≠ id) :
    s.MarkDone id = (some Error.taskNotFound, s) := by
  have hinv := hr.hasInv
  have hl : lookup s.db.entries (itob id) = none := by
    apply lookup_none_of_ne
    intro kv hkv hk
    obtain ⟨t, hc, hu, hkey, _⟩ := hinv.2.1 kv hkv
    have hmem : t ∈ (s.ListTasks true).1 := (hinv.mem_listTasks_true t).2 ⟨kv, hkv, hu⟩
    exact h t hmem (itob_injective _ _ hc.1 hid (hkey.symm.trans hk))
  rw [MarkDone_eq, hl]

/-- C5 (witness): `MarkDone(7)` on the store holding the tasks 1 and 2. -/
theorem markDone_missing_witness :
    Reachable exampleStore3 ∧ (∀ t ∈ (exampleStore3.ListTasks true).1, t.ID ≠ 7) ∧
    exampleStore3.MarkDone 7 = (some Error.taskNotFound, exampleStore3) :=
  ⟨⟨2, reachable_example3⟩, by decide,
    markDone_missing exampleStore3 7 ⟨2, reachable_example3⟩ (by norm_num) (by decide)⟩

/-- C6: in every reachable store state and for every id, `DeleteTask(id)`
returns no error whether or not a task with that id exists; afterwards neither
`ListTasks(true)` nor `ListTasks(false)` fails or contains a task with that id,
and a second `DeleteTask(id)` returns no error and leaves the store exactly as
the first call left it. -/
theorem deleteTask_idempotent (s : Store) (id : Nat) (hr : Reachable s) :
    (s.DeleteTask id).1 = none ∧
    (∀ inc, ((s.DeleteTask id).2.ListTasks inc).2 = none ∧
      ∀ t ∈ ((s.DeleteTask id).2.ListTasks inc).1, t.ID ≠ id) ∧
    (s.DeleteTask id).2.DeleteTask id = (none, (s.DeleteTask id).2) := by
  have hinv := hr.hasInv
  have hinv' := inv_deleteTask s hinv id
  refine ⟨rfl, ?_, ?_⟩
  · intro inc
    refine ⟨by rw [hinv'.listTasks inc], ?_⟩
    intro t ht
    rw [hinv'.listTasks inc] at ht
    simp only [List.mem_filter] at ht
    obtain ⟨kv, hkv, hu⟩ := (mem_decodeAll _ t).1 ht.1
    obtain ⟨hk, hc⟩ := hinv'.key_of_mem kv hkv t hu
    rw [DeleteTask_eq] at hkv
    simp only [remove_eq_filter _ _ hinv.1, List.mem_filter, decide_eq_true_eq] at hkv
    intro heq
    exact hkv.2 (by rw [hk, heq])
  · rw [DeleteTask_eq (s.DeleteTask id).2]
    have : remove (s.DeleteTask id).2.db.entries (itob id) = (s.DeleteTask id).2.db.entries := by
      rw [remove_eq_filter _ _ hinv'.1, List.filter_eq_self]
      intro kv hkv
      rw [DeleteTask_eq] at hkv
      simp only [remove_eq_filter _ _ hinv.1, List.mem_filter] at hkv
      exact hkv.2
    rw [this]

/-- C6 (witness): `DeleteTask(2)` on the store holding the tasks 1 and 2. -/
theorem deleteTask_idempotent_witness :
    Reachable exampleStore3 ∧
    ((exampleStore3.DeleteTask 2).2.ListTasks true).1.map Task.ID = [1] ∧
    (exampleStore3.DeleteTask 2).1 = none ∧
    (∀ inc, ((exampleStore3.DeleteTask 2).2.ListTasks inc).2 = none ∧
      ∀ t ∈ ((exampleStore3.DeleteTask 2).2.ListTasks inc).1, t.ID ≠ 2) ∧
    (exampleStore3.DeleteTask 2).2.DeleteTask 2 = (none, (exampleStore3.DeleteTask 2).2) :=
  ⟨⟨2, reachable_example3⟩, by decide,
    deleteTask_idempotent exampleStore3 2 ⟨2, reachable_example3⟩⟩

/-- C7: for every store state in which every stored record decodes, whatever
function from stored bytes to a task or an error `json.Unmarshal` is,
`ListTasks(true)` returns no error and the task of every stored record, in key
order, and `ListTasks(false)` returns no error and exactly the tasks of
`ListTasks(true)` with `done = false`, in the same relative order; on a store
without records both return the empty sequence and no error. -/
theorem listTasks_all_and_pending (unmarshal : Bytes → Except Error Task) (s : Store)
    (h : ∀ kv ∈ s.db.entries, ∃ t, unmarshal kv.2 = .ok t) :
    (s.ListTasksWith unmarshal true).2 = none ∧
    List.Forall₂ (fun kv t => unmarshal kv.2 = .ok t) s.db.entries
      (s.ListTasksWith unmarshal true).1 ∧
    s.ListTasksWith unmarshal false
      = ((s.ListTasksWith unmarshal true).1.filter (fun t => !t.Done), none) ∧
    (s.db.entries = [] →
      s.ListTasksWith unmarshal true = ([], none) ∧
      s.ListTasksWith unmarshal false = ([], none)) := by
  obtain ⟨ts, hts, h1⟩ := listLoop_forall₂ unmarshal true s.db.entries [] h
  obtain ⟨ts', hts', h2⟩ := listLoop_forall₂ unmarshal false s.db.entries [] h
  have hfun : ts' = ts := forall₂_decode_unique unmarshal _ ts ts' hts hts'
  subst hfun
  simp only [List.nil_append, Bool.true_or, Bool.false_or, List.filter_true] at h1 h2
  have e1 : s.ListTasksWith unmarshal true = (ts', none) := h1
  have e2 : s.ListTasksWith unmarshal false = (ts'.filter (fun t => !t.Done), none) := h2
  refine ⟨by rw [e1], by rw [e1]; exact hts, by rw [e2, e1], ?_⟩
  intro he
  rw [he] at hts
  cases hts
  exact ⟨e1, e2⟩

/-- C7 (witness): the store holding task 1, done, and task 2, pending, read
with the decoder `Unmarshal`. -/
theorem listTasks_all_and_pending_witness :
    (∀ kv ∈ exampleStore3.db.entries, ∃ t, Unmarshal kv.2 = .ok t) ∧
    (exampleStore3.ListTasksWith Unmarshal true).1.map Task.ID = [1, 2] ∧
    (exampleStore3.ListTasksWith Unmarshal false).1.map Task.ID = [2] ∧
    (exampleStore3.ListTasksWith Unmarshal true).2 = none ∧
    List.Forall₂ (fun kv t => Unmarshal kv.2 = .ok t) exampleStore3.db.entries
      (exampleStore3.ListTasksWith Unmarshal true).1 ∧
    exampleStore3.ListTasksWith Unmarshal false
      = ((exampleStore3.ListTasksWith Unmarshal true).1.filter (fun t => !t.Done), none) ∧
    (exampleStore3.db.entries = [] →
      exampleStore3.ListTasksWith Unmarshal true = ([], none) ∧
      exampleStore3.ListTasksWith Unmarshal false = ([], none)) :=
  ⟨Inv.decodes reachable_example3.toInv, by decide, by decide,
    listTasks_all_and_pending Unmarshal exampleStore3 (Inv.decodes reachable_example3.toInv)⟩

/-- C8 (amended): for every task with a 64-bit id, a text that is valid UTF-8
and created and due times that RFC 3339 can carry (a year from 0 to 9999, a
zone offset that is a whole number of minutes and under 24 hours), and any
done flag, encoding the task and decoding the bytes succeeds and yields a task
equal to it in all five fields, down to the nanosecond of both times. -/
theorem marshal_roundtrip (t : Task) (h : t.Canonical) : roundTrip t = .ok t := by
  obtain ⟨buf, hm⟩ := h.marshal
  rw [roundTrip, hm]
  exact h.roundtrip buf hm

/-- C8 (witness): a task with a two-byte UTF-8 character in its text, a
non-zero nanosecond and a zone offset of five and a half hours. -/
theorem marshal_roundtrip_witness :
    Task.Canonical ⟨7, [0x63, 0x61, 0x66, 0xC3, 0xA9], exampleNow, exampleDue, true⟩ ∧
    roundTrip ⟨7, [0x63, 0x61, 0x66, 0xC3, 0xA9], exampleNow, exampleDue, true⟩
      = .ok ⟨7, [0x63, 0x61, 0x66, 0xC3, 0xA9], exampleNow, exampleDue, true⟩ :=
  ⟨by decide, marshal_roundtrip _ (by decide)⟩

/-- C8 (counterexample): a task whose text is the byte `0xFF` decodes to a
task with the text U+FFFD, not to itself; a task whose due date is in a zone
thirty seconds east of UTC is written with the zone `+00:00` and decodes to a
task whose due date has zone offset zero, another instant, not to itself; a
task whose due year is 10000 and a task whose due zone offset is 25 hours are
not encoded at all. -/
theorem marshal_roundtrip_fails :
    roundTrip ⟨1, [0xFF], exampleNow, exampleDue, false⟩
      = .ok ⟨1, [0xEF, 0xBF, 0xBD], exampleNow, exampleDue, false⟩ ∧
    roundTrip ⟨1, [0xFF], exampleNow, exampleDue, false⟩
      ≠ .ok ⟨1, [0xFF], exampleNow, exampleDue, false⟩ ∧
    halfMinuteDue.Valid ∧
    (Marshal ⟨1, buyMilk, exampleNow, halfMinuteDue, false⟩).toOption.isSome = true ∧
    roundTrip ⟨1, buyMilk, exampleNow, halfMinuteDue, false⟩
      = .ok ⟨1, buyMilk, exampleNow, exampleDue, false⟩ ∧
    roundTrip ⟨1, buyMilk, exampleNow, halfMinuteDue, false⟩
      ≠ .ok ⟨1, buyMilk, exampleNow, halfMinuteDue, false⟩ ∧
    roundTrip ⟨1, buyMilk, exampleNow, ⟨10000, 1, 1, 0, 0, 0, 0, 0⟩, false⟩
      = .error Error.yearOutOfRange ∧
    roundTrip ⟨1, buyMilk, exampleNow, ⟨2024, 1, 1, 0, 0, 0, 0, 90000⟩, false⟩
      = .error Error.zoneHourOutOfRange := by
  refine ⟨rfl, ?_, by decide, rfl, rfl, ?_, rfl, rfl⟩
  · intro h
    have h1 : roundTrip ⟨1, [0xFF], exampleNow, exampleDue, false⟩
        = .ok ⟨1, [0xEF, 0xBF, 0xBD], exampleNow, exampleDue, false⟩ := rfl
    rw [h1] at h
    injection h with h
    exact absurd h (by decide)
  · intro h
    have h1 : roundTrip ⟨1, buyMilk, exampleNow, halfMinuteDue, false⟩
        = .ok ⟨1, buyMilk, exampleNow, exampleDue, false⟩ := rfl
    rw [h1] at h
    injection h with h
    exact absurd h (by decide)

/-- C9: in every reachable store state, a successful `MarkDone(id)` changes
only the done field of the task with that id: `ListTasks(true)` afterwards
returns the tasks it returned before, in the same order, with `done` set on
the task whose id is `id` and every other field and every other task as
before, and the sequence that issues the next id is unchanged. -/
theorem markDone_frame (s : Store) (id : Nat) (hr : Reachable s) (hid : id < 2 ^ 64)
    (hok : (s.MarkDone id).1 = none) :
    (s.MarkDone id).2.ListTasks true =
      ((s.ListTasks true).1.map (fun t => if t.ID = id then { t with Done := true } else t),
        none) ∧
    (s.ListTasks true).2 = none ∧
    (s.MarkDone id).2.db.sequence = s.db.sequence := by
  have hinv := hr.hasInv
  have hinv' := inv_markDone s hinv id
  refine ⟨?_, by rw [hinv.listTasks true], MarkDone_sequence s id⟩
  rw [hinv'.listTasks true, hinv.listTasks true, hinv.listTasks_markDone id hid hok]
  simp

/-- C9 (witness): `MarkDone(2)` on the store holding task 1, done, and task 2,
pending. -/
theorem markDone_frame_witness :
    Reachable exampleStore3 ∧ (exampleStore3.MarkDone 2).1 = none ∧
    (exampleStore3.MarkDone 2).2.ListTasks true =
      ((exampleStore3.ListTasks true).1.map
        (fun t => if t.ID = 2 then { t with Done := true } else t), none) ∧
    (exampleStore3.ListTasks true).2 = none ∧
    (exampleStore3.MarkDone 2).2.db.sequence = exampleStore3.db.sequence :=
  ⟨⟨2, reachable_example3⟩, by decide,
    markDone_frame exampleStore3 2 ⟨2, reachable_example3⟩ (by norm_num) (by decide)⟩

/-- C10: in every store state reachable from the empty store through
`AddTask`, `MarkDone` and `DeleteTask`, `ListTasks(true)` and
`ListTasks(false)` return their tasks in strictly ascending id order: every
record is stored under `itob` of its task's id, the records are in
byte-lexicographic key order, and for all `uint64` `a`, `b`, `itob a` is
lexicographically less than `itob b` exactly when `a < b`. -/
theorem listTasks_ascending (s : Store) (hr : Reachable s) :
    (∀ inc, ((s.ListTasks inc).1.map Task.ID).Pairwise (· < ·)) ∧
    (∀ kv ∈ s.db.entries, ∃ t, Unmarshal kv.2 = .ok t ∧ kv.1 = itob t.ID) ∧
    KeysSorted s.db.entries ∧
    ∀ a b, a < 2 ^ 64 → b < 2 ^ 64 → (bytesCompare (itob a) (itob b) = .lt ↔ a < b) := by
  have hinv := hr.hasInv
  refine ⟨?_, ?_, hinv.1, itob_lt_iff⟩
  · intro inc
    rw [hinv.listTasks inc]
    exact List.Pairwise.sublist (List.Sublist.map _ (List.filter_sublist _))
      (decodeAll_ids_sorted _ hinv.1 hinv.2.1)
  · intro kv hkv
    obtain ⟨t, _, hu, hk, _⟩ := hinv.2.1 kv hkv
    exact ⟨t, hu, hk⟩

/-- C10 (witness): the store holding the tasks 1 and 2. -/
theorem listTasks_ascending_witness :
    Reachable exampleStore3 ∧ (exampleStore3.ListTasks true).1.map Task.ID = [1, 2] ∧
    (∀ inc, ((exampleStore3.ListTasks inc).1.map Task.ID).Pairwise (· < ·)) ∧
    (∀ kv ∈ exampleStore3.db.entries, ∃ t, Unmarshal kv.2 = .ok t ∧ kv.1 = itob t.ID) ∧
    KeysSorted exampleStore3.db.entries ∧
    ∀ a b, a < 2 ^ 64 → b < 2 ^ 64 → (bytesCompare (itob a) (itob b) = .lt ↔ a < b) :=
  ⟨⟨2, reachable_example3⟩, by decide, listTasks_ascending exampleStore3 ⟨2, reachable_example3⟩⟩

end TaskMgr
